import Mathlib

/-!
Verification development for the Outpost bulk-ingest pipeline
(`outpost_bulkingest`): a shallow embedding of the SQLite-backed job
store (`db.py`), the directory scanner (`scanner.py`) and the OCR
worker (`worker.py`), with theorems about the ingestion and
job-lifecycle behaviour.

Modelling conventions:
* SQLite tables are lists of typed rows; `AUTOINCREMENT` ids and
  `CURRENT_TIMESTAMP` are modelled by counters (`nextJobId`, `now`)
  carried in the `DB` state.
* A file's SHA-256 content digest is carried directly as the `digest`
  field of a filesystem node: the hash is collision resistant, so two
  files have the same digest exactly when they have the same bytes.
* Python exceptions are modelled with `Except` / explicit error
  constructors; an exception carries the state at the raise point.
* External effects (Tesseract OCR, the JSON artifact write) are oracle
  parameters of the worker, as the spec treats OCR as a pluggable
  external capability.
-/

namespace Outpost

/-! ## Path and name helpers (pathlib semantics used by the scanner) -/

/-- Python `pathlib.Path.suffix` on a file name, over its character
list: the suffix starts at the last dot, provided that dot is neither
the first nor the last character; otherwise the suffix is empty. -/
def pySuffix (cs : List Char) : List Char :=
  match cs.reverse.findIdx? (· == '.') with
  | none => []
  | some r =>
    let i := cs.length - 1 - r
    if 0 < i && i + 1 < cs.length then cs.drop i else []

/-- Model of `entry.suffix.lower()` from `scanner.py`. -/
def suffixLower (name : String) : String :=
  String.mk ((pySuffix name.toList).map Char.toLower)

/-- Model of `scanner._is_hidden`: the entry name starts with a dot. -/
def hiddenName (name : String) : Bool :=
  match name.toList with
  | [] => false
  | c :: _ => c == '.'

/-- Filesystem paths as lists of name segments from the root. -/
abbrev FPath := List String

/-- Render a path as the string handed to the database
(`str(zip_path)` in `scanner.py`). -/
def pathStr (p : FPath) : String :=
  String.intercalate "/" p

/-- Supported document/image extensions, from
`scanner.SUPPORTED_EXTENSIONS`. -/
def SUPPORTED_EXTENSIONS : List String :=
  [".pdf", ".tif", ".tiff", ".jpg", ".jpeg", ".png"]

/-! ## Data model (`models.py` dataclasses / SQLite rows of `db.py`) -/

/-- Row of the `projects` table (`models.Project`).  `inputPath` is
the scanned input root as a segment path in the modelled filesystem;
`rootPath` is the canonical storage root rendered as a string. -/
structure Project where
  id : Nat
  name : String
  inputPath : FPath
  rootPath : String
  createdAt : Nat
deriving Repr, DecidableEq

/-- Row of the `jobs` table (`models.Job`). -/
structure Job where
  id : Nat
  projectId : Nat
  originalRelpath : String
  originalFullpath : String
  status : String
  errorMessage : Option String
  createdAt : Nat
  updatedAt : Nat
  hash : String
  numPages : Option Nat
  fileExtension : String
deriving Repr, DecidableEq

/-- Row of the `zip_extractions` table. -/
structure ZipExtraction where
  id : Nat
  projectId : Nat
  zipPath : String
  zipHash : String
  extractedAt : Nat
deriving Repr, DecidableEq

/-- The SQLite database state: the three tables plus the id and clock
counters that stand for `AUTOINCREMENT` and `CURRENT_TIMESTAMP`. -/
structure DB where
  projects : List Project
  jobs : List Job
  zips : List ZipExtraction
  nextJobId : Nat
  nextZipId : Nat
  now : Nat
deriving Repr, DecidableEq

/-! ## JobStore operations (`db.py`) -/

/-- `db.get_project`: `SELECT * FROM projects WHERE id = ?`. -/
def get_project (db : DB) (projectId : Nat) : Option Project :=
  db.projects.find? (fun p => p.id == projectId)

/-- `db.job_exists`: `SELECT 1 FROM jobs WHERE project_id = ? AND hash = ?`. -/
def job_exists (db : DB) (projectId : Nat) (fileHash : String) : Bool :=
  db.jobs.any (fun j => j.projectId == projectId && j.hash == fileHash)

/-- `db.insert_job`: plain `INSERT INTO jobs ... VALUES (..., 'pending', NULL, ...)`.
A row violating the `UNIQUE(project_id, hash)` constraint makes SQLite
raise `IntegrityError`, which `db.py` does not catch: modelled as
`Except.error` with the table unchanged.  On success the new row id is
returned. -/
def insert_job (db : DB) (projectId : Nat) (originalRelpath originalFullpath : String)
    (fileHash : String) (fileExtension : String) : Except String (DB × Nat) :=
  if job_exists db projectId fileHash then
    .error "UNIQUE constraint failed: jobs.project_id, jobs.hash"
  else
    let job : Job :=
      { id := db.nextJobId
        projectId := projectId
        originalRelpath := originalRelpath
        originalFullpath := originalFullpath
        status := "pending"
        errorMessage := none
        createdAt := db.now
        updatedAt := db.now
        hash := fileHash
        numPages := none
        fileExtension := fileExtension }
    .ok ({ db with
            jobs := db.jobs ++ [job]
            nextJobId := db.nextJobId + 1
            now := db.now + 1 }, db.nextJobId)

/-- FIFO claiming order of `db.fetch_pending_jobs`:
`ORDER BY created_at ASC, id ASC`. -/
def jobLe (a b : Job) : Prop :=
  a.createdAt < b.createdAt ∨ (a.createdAt = b.createdAt ∧ a.id ≤ b.id)

instance : DecidableRel jobLe := fun a b => by
  unfold jobLe; infer_instance

/-- The `WHERE` clause of `db.fetch_pending_jobs`: status `'pending'`,
optionally `AND project_id = ?`. -/
def pendingMatch (projectId : Option Nat) (j : Job) : Bool :=
  j.status == "pending" &&
    (match projectId with
     | some p => j.projectId == p
     | none => true)

/-- `db.fetch_pending_jobs`: `SELECT * FROM jobs WHERE status = 'pending'
[AND project_id = ?] ORDER BY created_at ASC, id ASC LIMIT ?`. -/
def fetch_pending_jobs (db : DB) (limit : Nat) (projectId : Option Nat) : List Job :=
  (((db.jobs.filter (pendingMatch projectId)).insertionSort jobLe).take limit)

/-- `db.set_job_status`: `UPDATE jobs SET status, error_message,
updated_at = CURRENT_TIMESTAMP WHERE id = ?`. -/
def set_job_status (db : DB) (jobId : Nat) (status : String)
    (errorMessage : Option String) : DB :=
  { db with
      jobs := db.jobs.map (fun j =>
        if j.id == jobId then
          { j with status := status, errorMessage := errorMessage,
                   updatedAt := db.now }
        else j)
      now := db.now + 1 }

/-- `db.zip_already_extracted`: `SELECT 1 FROM zip_extractions WHERE
project_id = ? AND zip_path = ? AND zip_hash = ?`. -/
def zip_already_extracted (db : DB) (projectId : Nat) (zipPath : String)
    (zipHash : String) : Bool :=
  db.zips.any (fun z =>
    z.projectId == projectId && z.zipPath == zipPath && z.zipHash == zipHash)

/-- `db.record_zip_extraction`: `INSERT OR IGNORE INTO zip_extractions`.
A duplicate of the `UNIQUE(project_id, zip_path, zip_hash)` key is
silently ignored, leaving the table unchanged. -/
def record_zip_extraction (db : DB) (projectId : Nat) (zipPath : String)
    (zipHash : String) : DB :=
  if zip_already_extracted db projectId zipPath zipHash then db
  else
    { db with
        zips := db.zips ++
          [{ id := db.nextZipId
             projectId := projectId
             zipPath := zipPath
             zipHash := zipHash
             extractedAt := db.now }]
        nextZipId := db.nextZipId + 1
        now := db.now + 1 }

/-- Rows of the `jobs` table visible to a query with an optional
`WHERE project_id = ?` filter. -/
def jobsOf (db : DB) (projectId : Option Nat) : List Job :=
  db.jobs.filter (fun j =>
    match projectId with
    | some p => j.projectId == p
    | none => true)

/-- `db.count_jobs_by_status`: `SELECT status, COUNT(*) FROM jobs
[WHERE project_id = ?] GROUP BY status`. -/
def count_jobs_by_status (db : DB) (projectId : Option Nat) : List (String × Nat) :=
  let statuses := (jobsOf db projectId).map (fun j => j.status)
  statuses.dedup.map (fun s => (s, statuses.count s))

/-- `db.count_jobs_by_extension`: `SELECT file_extension, COUNT(*) FROM
jobs [WHERE project_id = ?] GROUP BY file_extension`. -/
def count_jobs_by_extension (db : DB) (projectId : Option Nat) : List (String × Nat) :=
  let exts := (jobsOf db projectId).map (fun j => j.fileExtension)
  exts.dedup.map (fun e => (e, exts.count e))

/-- `db.total_jobs`: `SELECT COUNT(*) FROM jobs [WHERE project_id = ?]`. -/
def total_jobs (db : DB) (projectId : Option Nat) : Nat :=
  (jobsOf db projectId).length

/-- `db.get_job`: `SELECT * FROM jobs WHERE id = ?`. -/
def get_job (db : DB) (jobId : Nat) : Option Job :=
  db.jobs.find? (fun j => j.id == jobId)

/-! ## Filesystem model for the scanner (`scanner.py`)

A filesystem is a list of entries; an entry lives in a directory
(`dir`, the segment path of its parent), has a `name`, and is either a
directory, a plain file carrying its content digest, or a zip archive
carrying its digest, a validity flag (`False` makes `zipfile.ZipFile`/
`extractall` raise `BadZipFile`), and its member list.  A zip member is
a relative directory path, a name, and a node; `extractall` drops the
members into the archive's containing directory, creating intermediate
directories and overwriting colliding entries, as `zipfile` does. -/

inductive Node where
  | dir : Node
  | file (digest : String) : Node
  | zip (digest : String) (valid : Bool) (payload : List (FPath × String × Node)) : Node
deriving Repr

/-- Whether a node is a directory (`entry.is_dir()`). -/
def Node.isDirNode : Node → Bool
  | .dir => true
  | _ => false

/-- `scanner.compute_sha256` applied to the file behind a node: the
content digest the model carries directly (collision-resistant hash =
content identity).  Never applied to directories by the scanner. -/
def Node.digest : Node → String
  | .dir => ""
  | .file d => d
  | .zip d _ _ => d

/-- The member list of an archive that `zipfile.ZipFile(...).extractall`
can expand, or `none` when opening/extracting raises `BadZipFile`
(either a structurally invalid zip, or a non-zip file with a `.zip`
name). -/
def Node.payloadIfValid : Node → Option (List (FPath × String × Node))
  | .zip _ true ms => some ms
  | _ => none

/-- One filesystem entry: parent directory path, entry name, node. -/
structure FsEntry where
  dir : FPath
  name : String
  node : Node
deriving Repr

/-- The modelled filesystem. -/
abbrev FS := List FsEntry

/-- Whether key `(d, n)` matches an entry. -/
def keyIs (d : FPath) (n : String) (e : FsEntry) : Bool :=
  e.dir == d && e.name == n

/-- `p.exists() and p.is_dir()`: some entry's full path is `p` and its
node is a directory. -/
def isDirAt (fs : FS) (p : FPath) : Bool :=
  fs.any (fun e => (e.dir ++ [e.name] : FPath) == p && e.node.isDirNode)

/-- `current_dir.iterdir()`: the entries whose parent is `p`, in
filesystem order. -/
def childrenOf (fs : FS) (p : FPath) : List FsEntry :=
  fs.filter (fun e => e.dir == p)

/-- Write a node at key `(d, n)`, overwriting an existing entry with
that key (as `extractall` overwrites files), else appending. -/
def fsWrite (fs : FS) (d : FPath) (n : String) (node : Node) : FS :=
  if fs.any (keyIs d n) then
    fs.map (fun e => if keyIs d n e then { e with node := node } else e)
  else fs ++ [⟨d, n, node⟩]

/-- Create a directory entry at key `(d, n)` unless some entry already
occupies that key (`os.makedirs(..., exist_ok=True)` as issued by
`extractall` for member paths). -/
def mkdirIfAbsent (fs : FS) (d : FPath) (n : String) : FS :=
  if fs.any (keyIs d n) then fs else fs ++ [⟨d, n, Node.dir⟩]

/-- Create every intermediate directory of a member's relative path. -/
def mkdirs (fs : FS) (base : FPath) : FPath → FS
  | [] => fs
  | s :: rest => mkdirs (mkdirIfAbsent fs base s) (base ++ [s]) rest

/-- Extract one zip member under `target`. -/
def writeMember (fs : FS) (target : FPath) (m : FPath × String × Node) : FS :=
  fsWrite (mkdirs fs target m.1) (target ++ m.1) m.2.1 m.2.2

/-- `archive.extractall(zip_path.parent)`. -/
def extractAll (fs : FS) (target : FPath) (members : List (FPath × String × Node)) : FS :=
  members.foldl (fun acc m => writeMember acc target m) fs

/-! ## Scanner (`scanner.py`) -/

/-- `scanner.extract_zip_if_needed`: hash the archive, return `false`
when an extraction record for `(project, path, hash)` exists, else
extract into the containing directory and record; a `BadZipFile`
(invalid archive) is logged and yields `false` with nothing recorded.
The returned boolean is the code's "extracted now" flag (`True` iff
extraction happened in this call). -/
def extract_zip_if_needed (db : DB) (fs : FS) (project : Project)
    (p : FPath) (name : String) (node : Node) : DB × FS × Bool :=
  if zip_already_extracted db project.id (pathStr (p ++ [name])) node.digest then
    (db, fs, false)
  else
    match node.payloadIfValid with
    | none => (db, fs, false)
    | some members =>
        (record_zip_extraction db project.id (pathStr (p ++ [name])) node.digest,
         extractAll fs p members, true)

/-- The counters returned by `scan_project`. -/
structure ScanSummary where
  new_jobs : Nat
  skipped_existing : Nat
  zip_extracted : Nat
deriving Repr, DecidableEq

/-- The canonical `originals/` storage area of a project: an
association of destination file name (`"{hash}_{name}"`) to content
digest; `shutil.copy2` overwrites an existing destination. -/
def storeCopy (origs : List (String × String)) (destName digest : String) :
    List (String × String) :=
  if origs.any (fun kv => kv.1 == destName) then
    origs.map (fun kv => if kv.1 == destName then (kv.1, digest) else kv)
  else origs ++ [(destName, digest)]

/-- The mutable state threaded through a scan: the database, the
scanned filesystem, the project's `originals/` store, and the summary
counters. -/
structure ScanState where
  db : DB
  fs : FS
  originals : List (String × String)
  summary : ScanSummary
deriving Repr

/-- The body of the `for entry in current_dir.iterdir()` loop of
`scan_project`, for one entry of directory `p`: skip hidden entries;
enqueue subdirectories; expand `.zip` archives (re-enqueueing `p` when
extraction happened now); hash and ingest supported files, skipping
digests that already have a job; ignore other extensions.  An
`IntegrityError` escaping `db.insert_job` aborts the scan, carrying
the state at the raise point (the file copy has already happened). -/
def processEntry (project : Project) (p : FPath) (st : ScanState)
    (queue : List FPath) (e : FsEntry) :
    Except (String × ScanState) (ScanState × List FPath) :=
  if hiddenName e.name then .ok (st, queue)
  else if e.node.isDirNode then .ok (st, queue ++ [p ++ [e.name]])
  else if suffixLower e.name == ".zip" then
    if (extract_zip_if_needed st.db st.fs project p e.name e.node).2.2 then
      .ok ({ st with
              db := (extract_zip_if_needed st.db st.fs project p e.name e.node).1
              fs := (extract_zip_if_needed st.db st.fs project p e.name e.node).2.1
              summary := { st.summary with
                zip_extracted := st.summary.zip_extracted + 1 } },
           queue ++ [p])
    else
      .ok ({ st with
              db := (extract_zip_if_needed st.db st.fs project p e.name e.node).1
              fs := (extract_zip_if_needed st.db st.fs project p e.name e.node).2.1 },
           queue)
  else if SUPPORTED_EXTENSIONS.contains (suffixLower e.name) then
    if job_exists st.db project.id e.node.digest then
      .ok ({ st with summary := { st.summary with
               skipped_existing := st.summary.skipped_existing + 1 } },
           queue)
    else
      match insert_job st.db project.id (e.node.digest ++ "_" ++ e.name)
          (project.rootPath ++ "/originals/" ++ (e.node.digest ++ "_" ++ e.name))
          e.node.digest (suffixLower e.name) with
      | .error msg =>
          .error (msg, { st with
            originals := storeCopy st.originals (e.node.digest ++ "_" ++ e.name)
              e.node.digest })
      | .ok (db', _) =>
          .ok ({ st with
                  db := db'
                  originals := storeCopy st.originals
                    (e.node.digest ++ "_" ++ e.name) e.node.digest
                  summary := { st.summary with
                    new_jobs := st.summary.new_jobs + 1 } },
               queue)
  else .ok (st, queue)

/-- Process the snapshot of a directory's entries in order. -/
def processEntries (project : Project) (p : FPath) :
    List FsEntry → ScanState → List FPath →
    Except (String × ScanState) (ScanState × List FPath)
  | [], st, queue => .ok (st, queue)
  | e :: rest, st, queue =>
    match processEntry project p st queue e with
    | .error es => .error es
    | .ok (st', q') => processEntries project p rest st' q'

/-- Outcome of a scan: normal completion, an escaping exception with
the state at the raise point, or fuel exhaustion (a model artifact —
the Python loop simply runs on). -/
inductive ScanOut where
  | out (st : ScanState)
  | err (msg : String) (st : ScanState)
  | fuelOut (st : ScanState) (queue : List FPath)

/-- The `while queue:` loop of `scan_project`: pop the leftmost
directory, skip it when it is (no longer) a directory, else process
its current children. -/
def scanLoop (project : Project) : Nat → List FPath → ScanState → ScanOut
  | 0, queue, st => .fuelOut st queue
  | _ + 1, [], st => .out st
  | fuel + 1, p :: rest, st =>
    if isDirAt st.fs p then
      match processEntries project p (childrenOf st.fs p) st rest with
      | .error (msg, st') => .err msg st'
      | .ok (st', queue') => scanLoop project fuel queue' st'
    else scanLoop project fuel rest st

/-- `scanner.scan_project`: resolve the project (else `ValueError`),
require the input root to exist and be a directory (else
`FileNotFoundError`, before anything is mutated), then run the
breadth-first queue starting at the input root with zeroed counters. -/
def scan_project (fuel : Nat) (db : DB) (fs : FS)
    (originals : List (String × String)) (projectId : Nat) : ScanOut :=
  match get_project db projectId with
  | none => .err ("Project " ++ toString projectId ++ " not found")
      ⟨db, fs, originals, ⟨0, 0, 0⟩⟩
  | some project =>
    if isDirAt fs project.inputPath then
      scanLoop project fuel [project.inputPath] ⟨db, fs, originals, ⟨0, 0, 0⟩⟩
    else
      .err ("Input path does not exist or is not a directory: " ++
            pathStr project.inputPath)
        ⟨db, fs, originals, ⟨0, 0, 0⟩⟩

/-! ## Worker (`worker.py`)

The OCR capability and the JSON artifact write are external effects:
`process_jobs` is parametrised over an OCR oracle (path ↦ structured
result or error message) and a write-failure oracle (output path and
result ↦ optional raised message), both instances of the single
`try`-block of `worker.process_jobs`. -/

/-- The structured OCR output of `ocr.run_ocr`: full text plus the
per-page breakdown (`page_index`, page text). -/
structure OcrResult where
  text : String
  pages : List (Nat × String)
deriving Repr, DecidableEq

/-- The counters returned by `worker.process_jobs`. -/
structure WorkSummary where
  processed : Nat
  succeeded : Nat
  failed : Nat
deriving Repr, DecidableEq

/-- Durable OCR artifacts: output path ↦ serialized structured result
(`json.dump` overwrites an existing file). -/
abbrev Artifacts := List (String × OcrResult)

/-- Write an artifact file, overwriting the path when present. -/
def artifactWrite (arts : Artifacts) (path : String) (res : OcrResult) : Artifacts :=
  if arts.any (fun kv => kv.1 == path) then
    arts.map (fun kv => if kv.1 == path then (kv.1, res) else kv)
  else arts ++ [(path, res)]

/-- One iteration of `worker._get_project_cache`: look the project up
once per distinct project id, caching hits; an unresolved project id
is simply absent from the cache. -/
def cacheStep (db : DB) (cache : List (Nat × Project)) (job : Job) :
    List (Nat × Project) :=
  if cache.any (fun kv => kv.1 == job.projectId) then cache
  else
    match get_project db job.projectId with
    | some project => cache ++ [(job.projectId, project)]
    | none => cache

/-- `worker._get_project_cache`: resolve each claimed job's project
once, caching hits; unresolved projects are simply absent from the
cache. -/
def get_project_cache (db : DB) (jobs : List Job) : List (Nat × Project) :=
  jobs.foldl (cacheStep db) []

/-- `project_cache.get(job.project_id)`. -/
def cacheGet (cache : List (Nat × Project)) (projectId : Nat) : Option Project :=
  (cache.find? (fun kv => kv.1 == projectId)).map (fun kv => kv.2)

/-- The artifact path `Path(project.root_path) / "ocr" / f"{job.id}.json"`. -/
def outPath (project : Project) (jobId : Nat) : String :=
  project.rootPath ++ "/ocr/" ++ toString jobId ++ ".json"

/-- State threaded through a worker run. -/
structure WorkState where
  db : DB
  artifacts : Artifacts
  summary : WorkSummary
deriving Repr

/-- The per-job `try`/`except`/`finally` body of `worker.process_jobs`
for a claimed job whose project resolved: transition to
`in_progress`; run OCR; on success write the artifact and transition
to `done`, counting `succeeded`; on any raise during OCR or the write,
transition to `failed` with the exception message, counting `failed`;
`processed` is incremented in the `finally` block either way. -/
def runOneJob (ocrFn : String → Except String OcrResult)
    (writeErr : String → OcrResult → Option String)
    (project : Project) (ws : WorkState) (job : Job) : WorkState :=
  let db1 := set_job_status ws.db job.id "in_progress" none
  match ocrFn job.originalFullpath with
  | .error exc =>
      { db := set_job_status db1 job.id "failed" (some exc)
        artifacts := ws.artifacts
        summary := { ws.summary with
          processed := ws.summary.processed + 1
          failed := ws.summary.failed + 1 } }
  | .ok res =>
      let path := outPath project job.id
      match writeErr path res with
      | some exc =>
          { db := set_job_status db1 job.id "failed" (some exc)
            artifacts := ws.artifacts
            summary := { ws.summary with
              processed := ws.summary.processed + 1
              failed := ws.summary.failed + 1 } }
      | none =>
          { db := set_job_status db1 job.id "done" none
            artifacts := artifactWrite ws.artifacts path res
            summary := { ws.summary with
              processed := ws.summary.processed + 1
              succeeded := ws.summary.succeeded + 1 } }

/-- The overall effect outcome of one claimed job: `some e` when the
OCR invocation — or, after a successful OCR, the artifact write —
raises with message `e`; `none` when both succeed. -/
def jobOutcome (ocrFn : String → Except String OcrResult)
    (writeErr : String → OcrResult → Option String)
    (project : Project) (job : Job) : Option String :=
  match ocrFn job.originalFullpath with
  | .error e => some e
  | .ok res => writeErr (outPath project job.id) res

/-- One iteration of the claimed-jobs loop of `worker.process_jobs`:
skip the job when its project is not in the cache, else run its
`try`/`except`/`finally` body. -/
def workStep (ocrFn : String → Except String OcrResult)
    (writeErr : String → OcrResult → Option String)
    (cache : List (Nat × Project)) (ws : WorkState) (job : Job) : WorkState :=
  match cacheGet cache job.projectId with
  | none => ws
  | some project => runOneJob ocrFn writeErr project ws job

/-- `worker.process_jobs`: claim up to `limit` pending jobs (optional
project filter), build the project cache, then process each claimed
job in order — skipping, without any counter update or row change,
jobs whose project is not in the cache. -/
def process_jobs (ocrFn : String → Except String OcrResult)
    (writeErr : String → OcrResult → Option String)
    (db : DB) (artifacts : Artifacts)
    (projectId : Option Nat) (limit : Nat) : WorkState :=
  let jobs := fetch_pending_jobs db limit projectId
  let init : WorkState := ⟨db, artifacts, ⟨0, 0, 0⟩⟩
  if jobs.isEmpty then init
  else
    let cache := get_project_cache db jobs
    jobs.foldl (workStep ocrFn writeErr cache) init

/-- The OCR invocation the worker actually performs: `worker.py` line
45 evaluates `ocr.perform_ocr(Path(job.original_fullpath))`, but the
`ocr` module defines only `run_ocr` (plus private helpers) and no
`perform_ocr`, so the attribute lookup raises `AttributeError` inside
the `try` block on every job.  Modelled as the always-failing OCR
oracle carrying the `AttributeError` message. -/
def perform_ocr_lookup : String → Except String OcrResult :=
  fun _ => .error "module outpost_bulkingest.ocr has no attribute perform_ocr"

/-- `worker.process_jobs` as shipped: the OCR oracle is the failing
`perform_ocr` attribute lookup, and the artifact write is never
reached. -/
def process_jobs_shipped (db : DB) (artifacts : Artifacts)
    (projectId : Option Nat) (limit : Nat) : WorkState :=
  process_jobs perform_ocr_lookup (fun _ _ => none) db artifacts projectId limit

/-! ## Aggregate counts (claim C9) -/

/-- Summing the per-group counts of a `GROUP BY` result recovers the
number of grouped rows. -/
theorem groupPairs_sum (l : List String) :
    ((l.dedup.map (fun s => (s, l.count s))).map (fun kv => kv.2)).sum = l.length := by
  rw [List.map_map]
  simpa [Function.comp] using List.sum_map_count_dedup_eq_length l

/-- C9: for every project filter (a single project or the global
view), the per-status job counts of `count_jobs_by_status` summed over
all statuses equal `total_jobs`, and the per-extension counts of
`count_jobs_by_extension` summed over all extensions equal the same
total. -/
theorem counts_by_status_and_extension_sum_to_total (db : DB) (projectId : Option Nat) :
    ((count_jobs_by_status db projectId).map (fun kv => kv.2)).sum =
      total_jobs db projectId ∧
    ((count_jobs_by_extension db projectId).map (fun kv => kv.2)).sum =
      total_jobs db projectId := by
  constructor
  · unfold count_jobs_by_status total_jobs
    rw [groupPairs_sum]
    exact List.length_map _ _
  · unfold count_jobs_by_extension total_jobs
    rw [groupPairs_sum]
    exact List.length_map _ _

/-! ## FIFO claiming (claim C7) -/

instance : IsTotal Job jobLe :=
  ⟨fun a b => by unfold jobLe; omega⟩

instance : IsTrans Job jobLe :=
  ⟨fun a b c => by unfold jobLe; omega⟩

/-- Unfolding of the `WHERE` clause of the pending-jobs query. -/
theorem pendingMatch_iff (projectId : Option Nat) (j : Job) :
    pendingMatch projectId j = true ↔
      j.status = "pending" ∧ ∀ p, projectId = some p → j.projectId = p := by
  unfold pendingMatch
  cases projectId <;> simp [Bool.and_eq_true]

/-- C7: `fetch_pending_jobs` returns only jobs in status `pending`
matching the optional project filter, at most `limit` of them, sorted
by creation time with id as tie-break, and FIFO-complete: any matching
pending job left behind sorts at or after every returned job. -/
theorem fetch_pending_jobs_fifo (db : DB) (limit : Nat) (projectId : Option Nat) :
    (∀ j ∈ fetch_pending_jobs db limit projectId,
        j.status = "pending" ∧ ∀ p, projectId = some p → j.projectId = p) ∧
    (fetch_pending_jobs db limit projectId).length ≤ limit ∧
    List.Sorted jobLe (fetch_pending_jobs db limit projectId) ∧
    (∀ j ∈ db.jobs, pendingMatch projectId j = true →
        j ∉ fetch_pending_jobs db limit projectId →
        ∀ j' ∈ fetch_pending_jobs db limit projectId, jobLe j' j) := by
  refine ⟨?_, ?_, ?_, ?_⟩
  · intro j hj
    unfold fetch_pending_jobs at hj
    have hj' := List.mem_of_mem_take hj
    rw [List.mem_insertionSort] at hj'
    exact (pendingMatch_iff projectId j).mp (List.mem_filter.mp hj').2
  · exact List.length_take_le _ _
  · unfold fetch_pending_jobs
    exact (List.sorted_insertionSort jobLe _).sublist (List.take_sublist _ _)
  · intro j hj hmatch hnot j' hj'
    unfold fetch_pending_jobs at hnot hj'
    set s := (db.jobs.filter (pendingMatch projectId)).insertionSort jobLe with hs
    have hjs : j ∈ s := by
      rw [hs, List.mem_insertionSort]
      exact List.mem_filter.mpr ⟨hj, hmatch⟩
    have hsplit : s = s.take limit ++ s.drop limit := (List.take_append_drop _ _).symm
    have hdrop : j ∈ s.drop limit := by
      rcases List.mem_append.mp (hsplit ▸ hjs) with h | h
      · exact absurd h hnot
      · exact h
    have hsorted : List.Sorted jobLe s := List.sorted_insertionSort jobLe _
    have := (List.pairwise_append.mp (hsplit ▸ hsorted)).2.2
    exact this j' hj' j hdrop

/-! ## Uniqueness violations at the storage layer (claim C5) -/

/-- A pending job row used by concrete fixtures. -/
def demoJob : Job :=
  ⟨1, 1, "doc.pdf", "data/projects/1/originals/doc.pdf", "pending", none, 0, 0,
   "h1", none, ".pdf"⟩

/-- A database holding one job for `(project 1, hash "h1")` and one
extraction record for `(project 1, "in/z.zip", "zh")`. -/
def c5db : DB := ⟨[], [demoJob], [⟨1, 1, "in/z.zip", "zh", 0⟩], 2, 2, 5⟩

/-- C5 counterexample: a job insertion that violates the
`UNIQUE(project_id, hash)` constraint is NOT treated as "already
exists": `insert_job` uses a plain `INSERT` with no handler, so the
`IntegrityError` propagates to the caller — refuting the claim that no
error is propagated for job insertions. -/
theorem insert_job_duplicate_raises :
    job_exists c5db 1 "h1" = true ∧
    insert_job c5db 1 "a" "b" "h1" ".pdf" =
      .error "UNIQUE constraint failed: jobs.project_id, jobs.hash" :=
  ⟨rfl, rfl⟩

/-- C5 amended: a duplicate extraction-record insertion is silently
ignored (`INSERT OR IGNORE`), leaving the table unchanged and raising
nothing; a duplicate job insertion propagates the integrity error to
the caller, with the table unchanged (no `Except.ok` state is
produced) — the scanner avoids this by checking `job_exists` first. -/
theorem duplicate_insert_behaviour (db : DB) (pid : Nat)
    (zp zh rp fp h ext : String) :
    (zip_already_extracted db pid zp zh = true →
       record_zip_extraction db pid zp zh = db) ∧
    (job_exists db pid h = true →
       insert_job db pid rp fp h ext =
         .error "UNIQUE constraint failed: jobs.project_id, jobs.hash") := by
  constructor
  · intro hz; unfold record_zip_extraction; simp [hz]
  · intro hj; unfold insert_job; simp [hj]

/-- C5 witness: both amended behaviours at the concrete fixture. -/
theorem duplicate_insert_behaviour_witness :
    record_zip_extraction c5db 1 "in/z.zip" "zh" = c5db ∧
    insert_job c5db 1 "a" "b" "h1" ".pdf" =
      .error "UNIQUE constraint failed: jobs.project_id, jobs.hash" :=
  ⟨(duplicate_insert_behaviour c5db 1 "in/z.zip" "zh" "a" "b" "h1" ".pdf").1 (by decide),
   (duplicate_insert_behaviour c5db 1 "in/z.zip" "zh" "a" "b" "h1" ".pdf").2 (by decide)⟩

/-! ## Archive-expansion guards (claim C6) -/

/-- C6: `extract_zip_if_needed` (1) does nothing and reports not
extracted now (the caller's "already extracted" signal) when an
extraction record for `(project, path, digest)` exists; (2) on a
structurally invalid archive records nothing and changes nothing, so
the archive is retried on the next scan; (3) when every record for
this path has a different digest (a replaced archive) and the archive
is valid, it extracts now and records the new digest. -/
theorem extract_zip_if_needed_guards (db : DB) (fs : FS) (project : Project)
    (p : FPath) (name : String) (node : Node) :
    (zip_already_extracted db project.id (pathStr (p ++ [name])) node.digest = true →
       extract_zip_if_needed db fs project p name node = (db, fs, false)) ∧
    (node.payloadIfValid = none →
       extract_zip_if_needed db fs project p name node = (db, fs, false)) ∧
    ((∀ z ∈ db.zips, z.projectId = project.id →
        z.zipPath = pathStr (p ++ [name]) → z.zipHash ≠ node.digest) →
      ∀ ms, node.payloadIfValid = some ms →
        extract_zip_if_needed db fs project p name node =
          (record_zip_extraction db project.id (pathStr (p ++ [name])) node.digest,
           extractAll fs p ms, true)) := by
  refine ⟨?_, ?_, ?_⟩
  · intro hz; unfold extract_zip_if_needed; simp [hz]
  · intro hv
    unfold extract_zip_if_needed
    by_cases hz : zip_already_extracted db project.id (pathStr (p ++ [name])) node.digest
    · simp [hz]
    · simp [hz, hv]
  · intro hall ms hv
    have hz : zip_already_extracted db project.id (pathStr (p ++ [name])) node.digest = false := by
      unfold zip_already_extracted
      rw [List.any_eq_false]
      intro z hz
      simp only [Bool.and_eq_true, beq_iff_eq]
      rintro ⟨⟨h1, h2⟩, h3⟩
      exact absurd h3 (hall z hz h1 h2)
    unfold extract_zip_if_needed
    simp [hz, hv]

/-- Fixture for the C6 witness: one recorded extraction. -/
def c6db : DB := ⟨[], [], [⟨1, 7, "d/z.zip", "zh", 0⟩], 1, 2, 3⟩

/-- Project fixture owning the C6 archives. -/
def c6project : Project := ⟨7, "p7", ["d"], "data/projects/7", 0⟩

/-- C6 witness: the three guard behaviours at concrete archives — a
byte-identical recorded archive, an invalid archive, and a replaced
archive (same path, new digest). -/
theorem extract_zip_if_needed_guards_witness :
    extract_zip_if_needed c6db [] c6project ["d"] "z.zip" (.zip "zh" true []) =
      (c6db, [], false) ∧
    extract_zip_if_needed c6db [] c6project ["d"] "z.zip" (.zip "bad" false []) =
      (c6db, [], false) ∧
    extract_zip_if_needed c6db [] c6project ["d"] "z.zip" (.zip "new" true []) =
      (record_zip_extraction c6db 7 (pathStr (["d"] ++ ["z.zip"])) "new",
       extractAll [] ["d"] [], true) :=
  ⟨(extract_zip_if_needed_guards c6db [] c6project ["d"] "z.zip" (.zip "zh" true [])).1
     (by decide),
   (extract_zip_if_needed_guards c6db [] c6project ["d"] "z.zip" (.zip "bad" false [])).2.1
     rfl,
   (extract_zip_if_needed_guards c6db [] c6project ["d"] "z.zip" (.zip "new" true [])).2.2
     (by decide) [] rfl⟩

/-! ## Fatal scan on a missing input root (claim C8) -/

/-- C8: when the project's input root does not exist as a directory,
`scan_project` fails immediately with the `FileNotFoundError` message
and the state it carries is exactly the initial database, filesystem
and originals store with zeroed counters — nothing was created, copied
or recorded. -/
theorem scan_missing_input_is_fatal_and_pure (fuel : Nat) (db : DB) (fs : FS)
    (origs : List (String × String)) (pid : Nat) (project : Project)
    (hp : get_project db pid = some project)
    (hdir : isDirAt fs project.inputPath = false) :
    scan_project fuel db fs origs pid =
      .err ("Input path does not exist or is not a directory: " ++
            pathStr project.inputPath)
        ⟨db, fs, origs, ⟨0, 0, 0⟩⟩ := by
  unfold scan_project
  rw [hp]
  simp [hdir]

/-- Fixture for the C8 witness: a project whose input root is absent
from the (empty) filesystem. -/
def c8project : Project := ⟨1, "proj", ["missing"], "data/projects/1", 0⟩

/-- Database fixture for the C8 witness. -/
def c8db : DB := ⟨[c8project], [], [], 1, 1, 0⟩

/-- C8 witness: the fatal, mutation-free failure at the fixture. -/
theorem scan_missing_input_witness :
    scan_project 5 c8db [] [] 1 =
      .err ("Input path does not exist or is not a directory: " ++
            pathStr (["missing"] : FPath))
        ⟨c8db, [], [], ⟨0, 0, 0⟩⟩ :=
  scan_missing_input_is_fatal_and_pure 5 c8db [] [] 1 c8project rfl rfl

/-! ## The shipped worker's unreachable success path (claim C1) -/

/-- Project fixture mirroring `tests/test_worker.py::test_worker_processes_job`. -/
def c1project : Project := ⟨1, "proj", ["input"], "data/projects/1", 0⟩

/-- The pending job of the worker test (hash `"hash123"`, extension `.pdf`). -/
def c1job : Job :=
  ⟨1, 1, "doc.pdf", "data/projects/1/originals/doc.pdf", "pending", none, 0, 0,
   "hash123", none, ".pdf"⟩

/-- Database fixture of the worker test: one project, one pending job. -/
def c1db : DB := ⟨[c1project], [c1job], [], 2, 1, 1⟩

/-- C1 (code bug evidence): on the exact scenario of
`tests/test_worker.py::test_worker_processes_job` — a claimed pending
job whose project resolves — the shipped `process_jobs` marks the job
`failed` with the `AttributeError` message and counts it under
`failed`, writing no artifact: `worker.py` line 45 calls
`ocr.perform_ocr`, which the `ocr` module does not define, so the OCR
invocation can never succeed.  The repository's own test asserts
`succeeded == 1` and final status `done` here, so the code contradicts
its test and the spec's success path. -/
theorem shipped_worker_never_succeeds :
    (process_jobs_shipped c1db [] (some 1) 1).summary =
      ⟨1, 0, 1⟩ ∧
    get_job (process_jobs_shipped c1db [] (some 1) 1).db 1 =
      some { c1job with
              status := "failed"
              errorMessage :=
                some "module outpost_bulkingest.ocr has no attribute perform_ocr"
              updatedAt := 2 } ∧
    (process_jobs_shipped c1db [] (some 1) 1).artifacts = [] :=
  ⟨rfl, rfl, rfl⟩

/-! ## Worker row and counter lemmas (claims C2 and C10) -/

/-- Searching by id commutes with an id-preserving row update. -/
theorem find?_map_id_preserving (f : Job → Job) (hf : ∀ j, (f j).id = j.id)
    (i : Nat) :
    ∀ l : List Job,
      (l.map f).find? (fun j => j.id == i) =
        (l.find? (fun j => j.id == i)).map f
  | [] => rfl
  | a :: l => by
    have h1 := find?_map_id_preserving f hf i l
    simp only [List.map_cons, List.find?, hf a]
    cases h : (a.id == i)
    · exact h1
    · rfl

/-- The row looked up after `set_job_status` is the old row, updated
exactly when its id is the targeted one. -/
theorem get_job_set_job_status (db : DB) (jid : Nat) (s : String)
    (e : Option String) (i : Nat) :
    get_job (set_job_status db jid s e) i =
      (get_job db i).map (fun j =>
        if j.id == jid then
          { j with status := s, errorMessage := e, updatedAt := db.now }
        else j) := by
  unfold get_job set_job_status
  exact find?_map_id_preserving _ (fun j => by split <;> rfl) i db.jobs

/-- An untargeted row is untouched by `set_job_status`. -/
theorem get_job_set_job_status_ne (db : DB) (jid : Nat) (s : String)
    (e : Option String) (i : Nat) (h : i ≠ jid) :
    get_job (set_job_status db jid s e) i = get_job db i := by
  rw [get_job_set_job_status]
  cases hj : get_job db i with
  | none => rfl
  | some j =>
    have hji : j.id = i := by
      have hp := List.find?_some hj
      exact beq_iff_eq.mp hp
    have hne : (j.id == jid) = false := by simp [hji, h]
    simp [hne]
    intro hc
    exact absurd (hji.symm.trans hc) h

/-- The looked-up row's id is the looked-up id. -/
theorem get_job_id (db : DB) (i : Nat) (j : Job)
    (h : get_job db i = some j) : j.id = i := by
  unfold get_job at h
  have hp := List.find?_some h
  exact beq_iff_eq.mp hp

/-- `set_job_status` never changes the `projects` table. -/
theorem set_job_status_projects (db : DB) (jid : Nat) (s : String)
    (e : Option String) :
    (set_job_status db jid s e).projects = db.projects := rfl

/-- Counter effect of one claimed job whose project resolved:
`processed` always steps by one, and exactly one of
`succeeded`/`failed` steps by one depending on the job's outcome. -/
theorem runOneJob_summary (ocrFn : String → Except String OcrResult)
    (writeErr : String → OcrResult → Option String)
    (project : Project) (ws : WorkState) (job : Job) :
    (runOneJob ocrFn writeErr project ws job).summary =
      { processed := ws.summary.processed + 1
        succeeded := ws.summary.succeeded +
          (if (jobOutcome ocrFn writeErr project job).isNone then 1 else 0)
        failed := ws.summary.failed +
          (if (jobOutcome ocrFn writeErr project job).isNone then 0 else 1) } := by
  unfold runOneJob jobOutcome
  cases ho : ocrFn job.originalFullpath with
  | error e => simp [ho]
  | ok res =>
    cases hw : writeErr (outPath project job.id) res with
    | none => simp [ho, hw]
    | some e => simp [ho, hw]

/-- A row with a different id than the processed job is untouched by
`runOneJob`. -/
theorem runOneJob_get_job_ne (ocrFn : String → Except String OcrResult)
    (writeErr : String → OcrResult → Option String)
    (project : Project) (ws : WorkState) (job : Job) (i : Nat)
    (h : i ≠ job.id) :
    get_job (runOneJob ocrFn writeErr project ws job).db i =
      get_job ws.db i := by
  unfold runOneJob
  cases ho : ocrFn job.originalFullpath with
  | error e =>
    simp only [ho]
    rw [get_job_set_job_status_ne _ _ _ _ _ h, get_job_set_job_status_ne _ _ _ _ _ h]
  | ok res =>
    cases hw : writeErr (outPath project job.id) res with
    | none =>
      simp only [ho, hw]
      rw [get_job_set_job_status_ne _ _ _ _ _ h,
          get_job_set_job_status_ne _ _ _ _ _ h]
    | some e =>
      simp only [ho, hw]
      rw [get_job_set_job_status_ne _ _ _ _ _ h,
          get_job_set_job_status_ne _ _ _ _ _ h]

/-- The processed job's row after `runOneJob`: the two status updates
collapse into the final status and error message determined by the
job's outcome. -/
theorem runOneJob_get_job_self (ocrFn : String → Except String OcrResult)
    (writeErr : String → OcrResult → Option String)
    (project : Project) (ws : WorkState) (job : Job) (r0 : Job)
    (hrow : get_job ws.db job.id = some r0) :
    get_job (runOneJob ocrFn writeErr project ws job).db job.id =
      some { r0 with
              status :=
                if (jobOutcome ocrFn writeErr project job).isNone then "done"
                else "failed"
              errorMessage := jobOutcome ocrFn writeErr project job
              updatedAt := ws.db.now + 1 } := by
  have hid : r0.id = job.id := get_job_id _ _ _ hrow
  unfold runOneJob jobOutcome
  cases ho : ocrFn job.originalFullpath with
  | error e =>
    simp only [ho]
    rw [get_job_set_job_status, get_job_set_job_status, hrow]
    simp [hid, set_job_status]
  | ok res =>
    cases hw : writeErr (outPath project job.id) res with
    | none =>
      simp only [ho, hw]
      rw [get_job_set_job_status, get_job_set_job_status, hrow]
      simp [hid, set_job_status]
    | some e =>
      simp only [ho, hw]
      rw [get_job_set_job_status, get_job_set_job_status, hrow]
      simp [hid, set_job_status]

/-- Every resolution held in the fold accumulator of
`_get_project_cache` is sound with respect to the database. -/
theorem cache_fold_sound (db : DB) :
    ∀ (js : List Job) (cache : List (Nat × Project)),
      (∀ kv ∈ cache, get_project db kv.1 = some kv.2) →
      ∀ kv ∈ js.foldl (cacheStep db) cache, get_project db kv.1 = some kv.2
  | [], _, h => h
  | j :: js, cache, h => by
    apply cache_fold_sound db js
    intro kv hkv
    unfold cacheStep at hkv
    split at hkv
    · exact h kv hkv
    · cases hg : get_project db j.projectId with
      | none => rw [hg] at hkv; exact h kv hkv
      | some p =>
        rw [hg] at hkv
        rcases List.mem_append.mp hkv with hm | hm
        · exact h kv hm
        · rcases List.mem_singleton.mp hm with rfl
          exact hg

/-- Cache membership is monotone along the `_get_project_cache` fold. -/
theorem cache_fold_mono (db : DB) :
    ∀ (js : List Job) (cache : List (Nat × Project)) (kv : Nat × Project),
      kv ∈ cache → kv ∈ js.foldl (cacheStep db) cache
  | [], _, _, h => h
  | j :: js, cache, kv, h => by
    apply cache_fold_mono db js
    unfold cacheStep
    split
    · exact h
    · cases get_project db j.projectId with
      | none => exact h
      | some p => exact List.mem_append.mpr (Or.inl h)

/-- Every claimed job whose project resolves ends up with its project
id as a key of the built cache. -/
theorem cache_fold_covers (db : DB) :
    ∀ (js : List Job) (cache : List (Nat × Project)) (j : Job), j ∈ js →
      (get_project db j.projectId).isSome = true →
      (js.foldl (cacheStep db) cache).any (fun kv => kv.1 == j.projectId) = true
  | [], _, _, h, _ => absurd h (List.not_mem_nil _)
  | j' :: js, cache, j, h, hres => by
    rcases List.mem_cons.mp h with rfl | hmem
    · have hkey : (cacheStep db cache j).any (fun kv => kv.1 == j.projectId) = true := by
        unfold cacheStep
        split
        · assumption
        · cases hg : get_project db j.projectId with
          | none => rw [hg] at hres; simp at hres
          | some p => simp
      rcases List.any_eq_true.mp hkey with ⟨kv, hkv, hkvkey⟩
      exact List.any_eq_true.mpr ⟨kv, cache_fold_mono db js _ kv hkv, hkvkey⟩
    · exact cache_fold_covers db js (cacheStep db cache j') j hmem hres

/-- For a claimed job, the cache lookup of `worker.process_jobs` gives
exactly the direct project resolution against the database. -/
theorem cacheGet_get_project_cache (db : DB) (jobs : List Job) (j : Job)
    (hj : j ∈ jobs) :
    cacheGet (get_project_cache db jobs) j.projectId =
      get_project db j.projectId := by
  unfold get_project_cache
  have hsound := cache_fold_sound db jobs []
    (by intro kv hkv; exact absurd hkv (List.not_mem_nil kv))
  cases hg : get_project db j.projectId with
  | none =>
    unfold cacheGet
    cases hf : List.find? (fun kv => kv.1 == j.projectId)
        (jobs.foldl (cacheStep db) []) with
    | none => rfl
    | some kv =>
      exfalso
      have hkvmem := List.mem_of_find?_eq_some hf
      have hkvp := List.find?_some hf
      have hkvkey : kv.1 = j.projectId := beq_iff_eq.mp hkvp
      have hs := hsound kv hkvmem
      rw [hkvkey, hg] at hs
      exact Option.noConfusion hs
  | some p =>
    have hcov := cache_fold_covers db jobs [] j hj (by rw [hg]; rfl)
    unfold cacheGet
    cases hf : List.find? (fun kv => kv.1 == j.projectId)
        (jobs.foldl (cacheStep db) []) with
    | none =>
      exfalso
      rcases List.any_eq_true.mp hcov with ⟨kv, hkvmem, hkvkey⟩
      exact (List.find?_eq_none.mp hf kv hkvmem) hkvkey
    | some kv' =>
      have hmem' := List.mem_of_find?_eq_some hf
      have hkvp := List.find?_some hf
      have hkey' : kv'.1 = j.projectId := beq_iff_eq.mp hkvp
      have hs := hsound kv' hmem'
      rw [hkey', hg] at hs
      simp only [Option.map]
      exact congrArg some (Option.some_injective _ hs.symm)

/-- `process_jobs` is the fold of the per-job step over the claimed
batch (the early return on an empty batch coincides with the empty
fold). -/
theorem process_jobs_eq_foldl (ocrFn : String → Except String OcrResult)
    (writeErr : String → OcrResult → Option String)
    (db : DB) (arts : Artifacts) (pid : Option Nat) (limit : Nat) :
    process_jobs ocrFn writeErr db arts pid limit =
      (fetch_pending_jobs db limit pid).foldl
        (workStep ocrFn writeErr
          (get_project_cache db (fetch_pending_jobs db limit pid)))
        ⟨db, arts, ⟨0, 0, 0⟩⟩ := by
  unfold process_jobs
  cases hj : fetch_pending_jobs db limit pid with
  | nil => simp
  | cons a l => simp

/-- Counter bookkeeping of the claimed-jobs loop: `processed` counts
the jobs whose project resolved from the cache, `succeeded` those
whose whole effect succeeded, `failed` those whose effect raised. -/
theorem foldl_workStep_summary (ocrFn : String → Except String OcrResult)
    (writeErr : String → OcrResult → Option String)
    (cache : List (Nat × Project)) :
    ∀ (js : List Job) (ws : WorkState),
      ((js.foldl (workStep ocrFn writeErr cache) ws).summary.processed =
          ws.summary.processed +
            js.countP (fun j => (cacheGet cache j.projectId).isSome)) ∧
      ((js.foldl (workStep ocrFn writeErr cache) ws).summary.succeeded =
          ws.summary.succeeded +
            js.countP (fun j =>
              match cacheGet cache j.projectId with
              | some project => (jobOutcome ocrFn writeErr project j).isNone
              | none => false)) ∧
      ((js.foldl (workStep ocrFn writeErr cache) ws).summary.failed =
          ws.summary.failed +
            js.countP (fun j =>
              match cacheGet cache j.projectId with
              | some project => !(jobOutcome ocrFn writeErr project j).isNone
              | none => false))
  | [], ws => by simp
  | j :: js, ws => by
    have IH := foldl_workStep_summary ocrFn writeErr cache js
      (workStep ocrFn writeErr cache ws j)
    simp only [List.foldl_cons, List.countP_cons]
    cases hc : cacheGet cache j.projectId with
    | none =>
      have hws : workStep ocrFn writeErr cache ws j = ws := by
        unfold workStep; rw [hc]
      rw [hws] at IH
      rw [hws]
      refine ⟨?_, ?_, ?_⟩
      · rw [IH.1]; simp
      · rw [IH.2.1]; simp
      · rw [IH.2.2]; simp
    | some project =>
      have hws : workStep ocrFn writeErr cache ws j =
          runOneJob ocrFn writeErr project ws j := by
        unfold workStep; rw [hc]
      rw [hws] at IH
      rw [hws]
      have hsum := runOneJob_summary ocrFn writeErr project ws j
      refine ⟨?_, ?_, ?_⟩
      · rw [IH.1, hsum]; simp; omega
      · rw [IH.2.1, hsum]
        cases hno : (jobOutcome ocrFn writeErr project j).isNone
        · simp [hno]
        · simp [hno]; omega
      · rw [IH.2.2, hsum]
        cases hno : (jobOutcome ocrFn writeErr project j).isNone
        · simp [hno]; omega
        · simp [hno]

/-- Frame property of the claimed-jobs loop: a row whose id is not
among the processed jobs is untouched. -/
theorem foldl_workStep_frame (ocrFn : String → Except String OcrResult)
    (writeErr : String → OcrResult → Option String)
    (cache : List (Nat × Project)) :
    ∀ (js : List Job) (ws : WorkState) (i : Nat),
      i ∉ js.map (fun j => j.id) →
      get_job ((js.foldl (workStep ocrFn writeErr cache) ws)).db i =
        get_job ws.db i
  | [], _, _, _ => rfl
  | j :: js, ws, i, hi => by
    simp only [List.map_cons, List.mem_cons, not_or] at hi
    obtain ⟨hi1, hi2⟩ := hi
    simp only [List.foldl_cons]
    rw [foldl_workStep_frame ocrFn writeErr cache js _ i hi2]
    unfold workStep
    cases hc : cacheGet cache j.projectId with
    | none => rfl
    | some project => exact runOneJob_get_job_ne ocrFn writeErr project ws j i hi1

/-- Row outcome of a claimed job whose project resolved: its final row
is its pre-run row with status `done`/`failed` and the error message
determined by its own effect outcome. -/
theorem foldl_workStep_good_row (ocrFn : String → Except String OcrResult)
    (writeErr : String → OcrResult → Option String)
    (cache : List (Nat × Project)) :
    ∀ (js : List Job) (ws : WorkState) (j : Job), j ∈ js →
      (js.map (fun j => j.id)).Nodup →
      ∀ project, cacheGet cache j.projectId = some project →
      ∀ r0, get_job ws.db j.id = some r0 →
        ∃ r, get_job ((js.foldl (workStep ocrFn writeErr cache) ws)).db j.id =
              some r ∧
          r.status = (if (jobOutcome ocrFn writeErr project j).isNone then "done"
                      else "failed") ∧
          r.errorMessage = jobOutcome ocrFn writeErr project j
  | [], _, j, hj, _, _, _, _, _ => absurd hj (List.not_mem_nil j)
  | j' :: js, ws, j, hj, hnd, project, hc, r0, hr0 => by
    have hnd1 : j'.id ∉ js.map (fun x => x.id) := by
      rw [List.map_cons] at hnd; exact (List.nodup_cons.mp hnd).1
    have hnd2 : (js.map (fun x => x.id)).Nodup := by
      rw [List.map_cons] at hnd; exact (List.nodup_cons.mp hnd).2
    simp only [List.foldl_cons]
    rcases List.mem_cons.mp hj with rfl | hmem
    · -- j is processed first; its row then survives the rest of the batch
      have hrow := runOneJob_get_job_self ocrFn writeErr project ws j r0 hr0
      have hstep : workStep ocrFn writeErr cache ws j =
          runOneJob ocrFn writeErr project ws j := by
        unfold workStep; rw [hc]
      rw [hstep]
      rw [foldl_workStep_frame ocrFn writeErr cache js _ j.id hnd1, hrow]
      exact ⟨_, rfl, rfl, rfl⟩
    · -- j comes later: its pre-run row survives the head step
      have hjid : j.id ∈ js.map (fun x => x.id) :=
        List.mem_map.mpr ⟨j, hmem, rfl⟩
      have hne : j.id ≠ j'.id := fun h => hnd1 (h ▸ hjid)
      have hr0' : get_job ((workStep ocrFn writeErr cache ws j')).db j.id =
          some r0 := by
        unfold workStep
        cases hc' : cacheGet cache j'.projectId with
        | none => exact hr0
        | some project' =>
          rw [runOneJob_get_job_ne ocrFn writeErr project' ws j' j.id hne]
          exact hr0
      exact foldl_workStep_good_row ocrFn writeErr cache js _ j hmem hnd2
        project hc r0 hr0'

/-- Frame property for a claimed job whose project did not resolve:
its row is completely untouched by the worker run. -/
theorem foldl_workStep_bad_row (ocrFn : String → Except String OcrResult)
    (writeErr : String → OcrResult → Option String)
    (cache : List (Nat × Project)) :
    ∀ (js : List Job) (ws : WorkState) (j : Job), j ∈ js →
      (js.map (fun j => j.id)).Nodup →
      cacheGet cache j.projectId = none →
      get_job ((js.foldl (workStep ocrFn writeErr cache) ws)).db j.id =
        get_job ws.db j.id
  | [], _, j, hj, _, _ => absurd hj (List.not_mem_nil j)
  | j' :: js, ws, j, hj, hnd, hc => by
    have hnd1 : j'.id ∉ js.map (fun x => x.id) := by
      rw [List.map_cons] at hnd; exact (List.nodup_cons.mp hnd).1
    have hnd2 : (js.map (fun x => x.id)).Nodup := by
      rw [List.map_cons] at hnd; exact (List.nodup_cons.mp hnd).2
    simp only [List.foldl_cons]
    rcases List.mem_cons.mp hj with rfl | hmem
    · have hstep : workStep ocrFn writeErr cache ws j = ws := by
        unfold workStep; rw [hc]
      rw [hstep]
      exact foldl_workStep_frame ocrFn writeErr cache js ws j.id hnd1
    · have hjid : j.id ∈ js.map (fun x => x.id) :=
        List.mem_map.mpr ⟨j, hmem, rfl⟩
      have hne : j.id ≠ j'.id := fun h => hnd1 (h ▸ hjid)
      have hrec := foldl_workStep_bad_row ocrFn writeErr cache js
        (workStep ocrFn writeErr cache ws j') j hmem hnd2 hc
      rw [hrec]
      unfold workStep
      cases hc' : cacheGet cache j'.projectId with
      | none => rfl
      | some project' =>
        exact runOneJob_get_job_ne ocrFn writeErr project' ws j' j.id hne

/-- `countP` only depends on the predicate's values on the list. -/
theorem countP_congr_mem {α : Type} (p q : α → Bool) :
    ∀ (l : List α), (∀ x ∈ l, p x = q x) → l.countP p = l.countP q
  | [], _ => rfl
  | a :: l, h => by
    rw [List.countP_cons, List.countP_cons,
        countP_congr_mem p q l (fun x hx => h x (List.mem_cons_of_mem a hx)),
        h a (List.mem_cons_self a l)]

/-- `countP` splits along a pointwise decomposition of its predicate
into two disjoint predicates. -/
theorem countP_add_split {α : Type} (p q r : α → Bool) :
    ∀ (l : List α),
      (∀ x ∈ l, (if p x then 1 else 0) =
        ((if q x then 1 else 0) + (if r x then 1 else 0) : Nat)) →
      l.countP p = l.countP q + l.countP r
  | [], _ => rfl
  | a :: l, h => by
    rw [List.countP_cons, List.countP_cons, List.countP_cons,
        countP_add_split p q r l (fun x hx => h x (List.mem_cons_of_mem a hx))]
    have := h a (List.mem_cons_self a l)
    omega

/-- A claimed pending job is a row of the `jobs` table matching the
query filter. -/
theorem mem_of_mem_fetch (db : DB) (limit : Nat) (pid : Option Nat) (j : Job)
    (hj : j ∈ fetch_pending_jobs db limit pid) :
    j ∈ db.jobs ∧ pendingMatch pid j = true := by
  unfold fetch_pending_jobs at hj
  have hj' := List.mem_of_mem_take hj
  rw [List.mem_insertionSort] at hj'
  exact ⟨(List.mem_filter.mp hj').1, (List.mem_filter.mp hj').2⟩

/-- Distinct row ids in the table give distinct ids in a claimed batch. -/
theorem fetch_ids_nodup (db : DB) (limit : Nat) (pid : Option Nat)
    (hids : (db.jobs.map (fun j => j.id)).Nodup) :
    ((fetch_pending_jobs db limit pid).map (fun j => j.id)).Nodup := by
  unfold fetch_pending_jobs
  have h1 : ((db.jobs.filter (pendingMatch pid)).map (fun j => j.id)).Nodup :=
    List.Nodup.sublist (List.Sublist.map _ (List.filter_sublist _)) hids
  have h2 : (((db.jobs.filter (pendingMatch pid)).insertionSort jobLe).map
      (fun j => j.id)).Nodup :=
    (List.Perm.nodup_iff (List.Perm.map _ (List.perm_insertionSort jobLe _))).mpr h1
  exact List.Nodup.sublist (List.Sublist.map _ (List.take_sublist _ _)) h2

/-- With distinct row ids, looking a member row up by its id finds
exactly that row. -/
theorem find?_id_nodup (j : Job) :
    ∀ (l : List Job), j ∈ l → (l.map (fun x => x.id)).Nodup →
      l.find? (fun x => x.id == j.id) = some j
  | [], hj, _ => absurd hj (List.not_mem_nil j)
  | a :: l, hj, hids => by
    rw [List.map_cons] at hids
    have ha := (List.nodup_cons.mp hids).1
    have hl := (List.nodup_cons.mp hids).2
    rcases List.mem_cons.mp hj with rfl | hmem
    · simp [List.find?]
    · have hne : (a.id == j.id) = false := by
        have hin : j.id ∈ l.map (fun x => x.id) := List.mem_map.mpr ⟨j, hmem, rfl⟩
        simp only [beq_eq_false_iff_ne, ne_eq]
        intro h
        exact ha (h ▸ hin)
      simp only [List.find?, hne]
      exact find?_id_nodup j l hmem hl

theorem get_job_of_mem (db : DB) (j : Job) (hj : j ∈ db.jobs)
    (hids : (db.jobs.map (fun x => x.id)).Nodup) :
    get_job db j.id = some j := by
  unfold get_job
  exact find?_id_nodup j db.jobs hj hids

/-- One unit of work splits into its success and failure indicator. -/
theorem one_eq_isNone_split (b : Bool) :
    (1 : Nat) = (if b = true then 1 else 0) + (if (!b) = true then 1 else 0) := by
  cases b <;> simp

/-- C2: for a claimed batch over a table with distinct row ids,
`processed` counts exactly the claimed jobs whose project resolves
(failures never abort the rest of the batch), `processed` always
equals `succeeded + failed`, and every claimed job whose OCR
invocation or artifact write raises ends in status `failed` with the
raised message recorded. -/
theorem worker_failure_isolated_and_counted
    (ocrFn : String → Except String OcrResult)
    (writeErr : String → OcrResult → Option String)
    (db : DB) (arts : Artifacts) (pid : Option Nat) (limit : Nat)
    (hids : (db.jobs.map (fun j => j.id)).Nodup) :
    (process_jobs ocrFn writeErr db arts pid limit).summary.processed =
      (fetch_pending_jobs db limit pid).countP
        (fun j => (get_project db j.projectId).isSome) ∧
    (process_jobs ocrFn writeErr db arts pid limit).summary.processed =
      (process_jobs ocrFn writeErr db arts pid limit).summary.succeeded +
        (process_jobs ocrFn writeErr db arts pid limit).summary.failed ∧
    (∀ j ∈ fetch_pending_jobs db limit pid, ∀ project,
        get_project db j.projectId = some project →
        ∀ e, jobOutcome ocrFn writeErr project j = some e →
          ∃ r, get_job (process_jobs ocrFn writeErr db arts pid limit).db j.id =
                some r ∧ r.status = "failed" ∧ r.errorMessage = some e) := by
  have hcg : ∀ j ∈ fetch_pending_jobs db limit pid,
      cacheGet (get_project_cache db (fetch_pending_jobs db limit pid)) j.projectId =
        get_project db j.projectId :=
    fun j hj => cacheGet_get_project_cache db _ j hj
  have hsum := foldl_workStep_summary ocrFn writeErr
    (get_project_cache db (fetch_pending_jobs db limit pid))
    (fetch_pending_jobs db limit pid) ⟨db, arts, ⟨0, 0, 0⟩⟩
  refine ⟨?_, ?_, ?_⟩
  · rw [process_jobs_eq_foldl, hsum.1]
    simp only [Nat.zero_add]
    exact countP_congr_mem _ _ _ (fun j hj => by rw [hcg j hj])
  · rw [process_jobs_eq_foldl, hsum.1, hsum.2.1, hsum.2.2]
    simp only [Nat.zero_add]
    exact countP_add_split _ _ _ _ (fun x hx => by
      cases hcx : cacheGet (get_project_cache db (fetch_pending_jobs db limit pid))
          x.projectId with
      | none => simp [hcx]
      | some project =>
        simp only [hcx]
        simpa using one_eq_isNone_split (jobOutcome ocrFn writeErr project x).isNone)
  · intro j hj project hproj e houtc
    have hmem := (mem_of_mem_fetch db limit pid j hj).1
    have hrow0 : get_job db j.id = some j := get_job_of_mem db j hmem hids
    have hnd := fetch_ids_nodup db limit pid hids
    have hc : cacheGet (get_project_cache db (fetch_pending_jobs db limit pid))
        j.projectId = some project := by rw [hcg j hj, hproj]
    rw [process_jobs_eq_foldl]
    obtain ⟨r, hr, hst, herr⟩ := foldl_workStep_good_row ocrFn writeErr
      (get_project_cache db (fetch_pending_jobs db limit pid))
      (fetch_pending_jobs db limit pid) ⟨db, arts, ⟨0, 0, 0⟩⟩ j hj hnd
      project hc j hrow0
    refine ⟨r, hr, ?_, ?_⟩
    · rw [hst, houtc]; rfl
    · rw [herr, houtc]

/-- C10: a claimed job whose project id does not resolve is skipped:
its row is left exactly as it was (in particular still `pending`, with
its error message and updated timestamp untouched), none of the
counters counts it, while every claimed job whose project does resolve
is still processed to a terminal `done`/`failed` status. -/
theorem worker_unresolved_project_frame
    (ocrFn : String → Except String OcrResult)
    (writeErr : String → OcrResult → Option String)
    (db : DB) (arts : Artifacts) (pid : Option Nat) (limit : Nat)
    (hids : (db.jobs.map (fun j => j.id)).Nodup) :
    (∀ j ∈ fetch_pending_jobs db limit pid,
        get_project db j.projectId = none →
          get_job (process_jobs ocrFn writeErr db arts pid limit).db j.id =
            get_job db j.id ∧
          get_job db j.id = some j ∧ j.status = "pending") ∧
    (process_jobs ocrFn writeErr db arts pid limit).summary.processed =
      (fetch_pending_jobs db limit pid).countP
        (fun j => (get_project db j.projectId).isSome) ∧
    (process_jobs ocrFn writeErr db arts pid limit).summary.succeeded +
        (process_jobs ocrFn writeErr db arts pid limit).summary.failed =
      (process_jobs ocrFn writeErr db arts pid limit).summary.processed ∧
    (∀ j ∈ fetch_pending_jobs db limit pid, ∀ project,
        get_project db j.projectId = some project →
          ∃ r, get_job (process_jobs ocrFn writeErr db arts pid limit).db j.id =
                some r ∧ (r.status = "done" ∨ r.status = "failed")) := by
  have hcg : ∀ j ∈ fetch_pending_jobs db limit pid,
      cacheGet (get_project_cache db (fetch_pending_jobs db limit pid)) j.projectId =
        get_project db j.projectId :=
    fun j hj => cacheGet_get_project_cache db _ j hj
  have hnd := fetch_ids_nodup db limit pid hids
  have hsum := foldl_workStep_summary ocrFn writeErr
    (get_project_cache db (fetch_pending_jobs db limit pid))
    (fetch_pending_jobs db limit pid) ⟨db, arts, ⟨0, 0, 0⟩⟩
  refine ⟨?_, ?_, ?_, ?_⟩
  · intro j hj hnone
    have hmem := (mem_of_mem_fetch db limit pid j hj).1
    have hmatch := (mem_of_mem_fetch db limit pid j hj).2
    have hc : cacheGet (get_project_cache db (fetch_pending_jobs db limit pid))
        j.projectId = none := by rw [hcg j hj, hnone]
    refine ⟨?_, get_job_of_mem db j hmem hids,
      ((pendingMatch_iff pid j).mp hmatch).1⟩
    rw [process_jobs_eq_foldl]
    exact foldl_workStep_bad_row ocrFn writeErr _ _ ⟨db, arts, ⟨0, 0, 0⟩⟩ j hj hnd hc
  · rw [process_jobs_eq_foldl, hsum.1]
    simp only [Nat.zero_add]
    exact countP_congr_mem _ _ _ (fun j hj => by rw [hcg j hj])
  · rw [process_jobs_eq_foldl, hsum.1, hsum.2.1, hsum.2.2]
    simp only [Nat.zero_add]
    exact (countP_add_split _ _ _ _ (fun x hx => by
      cases hcx : cacheGet (get_project_cache db (fetch_pending_jobs db limit pid))
          x.projectId with
      | none => simp [hcx]
      | some project =>
        simp only [hcx]
        simpa using one_eq_isNone_split
          (jobOutcome ocrFn writeErr project x).isNone)).symm
  · intro j hj project hproj
    have hmem := (mem_of_mem_fetch db limit pid j hj).1
    have hrow0 : get_job db j.id = some j := get_job_of_mem db j hmem hids
    have hc : cacheGet (get_project_cache db (fetch_pending_jobs db limit pid))
        j.projectId = some project := by rw [hcg j hj, hproj]
    rw [process_jobs_eq_foldl]
    obtain ⟨r, hr, hst, _⟩ := foldl_workStep_good_row ocrFn writeErr
      (get_project_cache db (fetch_pending_jobs db limit pid))
      (fetch_pending_jobs db limit pid) ⟨db, arts, ⟨0, 0, 0⟩⟩ j hj hnd
      project hc j hrow0
    refine ⟨r, hr, ?_⟩
    rw [hst]
    cases (jobOutcome ocrFn writeErr project j).isNone <;> simp

/-- Project fixture for the worker-batch witnesses. -/
def c2project : Project := ⟨1, "p", ["in"], "root1", 0⟩

/-- A claimed job whose OCR invocation raises `"boom"`. -/
def c2job1 : Job := ⟨1, 1, "a.pdf", "f1", "pending", none, 0, 0, "ha", none, ".pdf"⟩

/-- A claimed job whose OCR invocation and artifact write succeed. -/
def c2job2 : Job := ⟨2, 1, "b.pdf", "f2", "pending", none, 1, 1, "hb", none, ".pdf"⟩

/-- A claimed job whose project id (99) resolves to no project row. -/
def c10orphan : Job := ⟨3, 99, "c.pdf", "f3", "pending", none, 2, 2, "hc", none, ".pdf"⟩

/-- Worker-batch database fixture: one project, three pending jobs. -/
def c2db : DB := ⟨[c2project], [c2job1, c2job2, c10orphan], [], 4, 1, 3⟩

/-- OCR oracle fixture: fails on the file behind `c2job1`, succeeds
elsewhere. -/
def c2ocr : String → Except String OcrResult :=
  fun path => if path == "f1" then .error "boom" else .ok ⟨"txt", [(1, "txt")]⟩

/-- Artifact-write oracle fixture: never raises. -/
def c2write : String → OcrResult → Option String := fun _ _ => none

/-- C2 witness: in the three-job batch, the failing job is recorded as
`failed` with message `"boom"`, the batch is fully processed despite
the failure, and `processed = succeeded + failed`. -/
theorem worker_failure_isolated_witness :
    (process_jobs c2ocr c2write c2db [] none 10).summary.processed =
      (fetch_pending_jobs c2db 10 none).countP
        (fun j => (get_project c2db j.projectId).isSome) ∧
    (process_jobs c2ocr c2write c2db [] none 10).summary.processed =
      (process_jobs c2ocr c2write c2db [] none 10).summary.succeeded +
        (process_jobs c2ocr c2write c2db [] none 10).summary.failed ∧
    (∃ r, get_job (process_jobs c2ocr c2write c2db [] none 10).db 1 = some r ∧
        r.status = "failed" ∧ r.errorMessage = some "boom") := by
  have h := worker_failure_isolated_and_counted c2ocr c2write c2db [] none 10
    (by decide)
  refine ⟨h.1, h.2.1, ?_⟩
  exact h.2.2 c2job1 (by decide) c2project rfl "boom" rfl

/-- C10 witness: in the same batch, the orphaned job's row is left
untouched (still exactly its pending row), the counters only count the
two resolvable jobs, and the resolvable jobs still reach a terminal
status. -/
theorem worker_unresolved_witness :
    (get_job (process_jobs c2ocr c2write c2db [] none 10).db 3 =
        get_job c2db 3 ∧
      get_job c2db 3 = some c10orphan ∧ c10orphan.status = "pending") ∧
    (process_jobs c2ocr c2write c2db [] none 10).summary.processed =
      (fetch_pending_jobs c2db 10 none).countP
        (fun j => (get_project c2db j.projectId).isSome) ∧
    (∃ r, get_job (process_jobs c2ocr c2write c2db [] none 10).db 2 = some r ∧
        (r.status = "done" ∨ r.status = "failed")) := by
  have h := worker_unresolved_project_frame c2ocr c2write c2db [] none 10
    (by decide)
  have h1 := h.1 c10orphan (by decide) rfl
  exact ⟨⟨h1.1, h1.2.1, h1.2.2⟩, h.2.1, h.2.2.2 c2job2 (by decide) c2project rfl⟩

/-! ## Scanner database effects (claims C3 and C4) -/

/-- The storage-layer invariant of claim C4: the `(project_id, hash)`
key is unique across the `jobs` table. -/
def UniqueJobKeys (db : DB) : Prop :=
  (db.jobs.map (fun j => (j.projectId, j.hash))).Nodup

/-- `job_exists` decides membership of the `(project_id, hash)` key. -/
theorem job_exists_iff_key_mem (db : DB) (pid : Nat) (h : String) :
    job_exists db pid h = true ↔
      (pid, h) ∈ db.jobs.map (fun j => (j.projectId, j.hash)) := by
  unfold job_exists
  rw [List.any_eq_true]
  constructor
  · rintro ⟨j, hj, hcond⟩
    rw [Bool.and_eq_true, beq_iff_eq, beq_iff_eq] at hcond
    exact List.mem_map.mpr ⟨j, hj, by rw [hcond.1, hcond.2]⟩
  · intro hmem
    rcases List.mem_map.mp hmem with ⟨j, hj, heq⟩
    refine ⟨j, hj, ?_⟩
    rw [Bool.and_eq_true, beq_iff_eq, beq_iff_eq]
    exact ⟨congrArg Prod.fst heq, congrArg Prod.snd heq⟩

/-- The database grows append-only during a scan: projects unchanged,
jobs and extraction records only appended. -/
def DbExtend (db db' : DB) : Prop :=
  db'.projects = db.projects ∧
  (∃ t, db'.jobs = db.jobs ++ t) ∧
  (∃ t, db'.zips = db.zips ++ t)

theorem dbExtend_refl (db : DB) : DbExtend db db :=
  ⟨rfl, ⟨[], by simp⟩, ⟨[], by simp⟩⟩

theorem dbExtend_trans {db1 db2 db3 : DB}
    (h1 : DbExtend db1 db2) (h2 : DbExtend db2 db3) : DbExtend db1 db3 := by
  obtain ⟨hp1, ⟨t1, hj1⟩, ⟨u1, hz1⟩⟩ := h1
  obtain ⟨hp2, ⟨t2, hj2⟩, ⟨u2, hz2⟩⟩ := h2
  exact ⟨hp2.trans hp1, ⟨t1 ++ t2, by rw [hj2, hj1, List.append_assoc]⟩,
         ⟨u1 ++ u2, by rw [hz2, hz1, List.append_assoc]⟩⟩

theorem dbExtend_record (db : DB) (pid : Nat) (zp zh : String) :
    DbExtend db (record_zip_extraction db pid zp zh) := by
  unfold record_zip_extraction
  split
  · exact dbExtend_refl db
  · exact ⟨rfl, ⟨[], by simp⟩, ⟨_, rfl⟩⟩

theorem dbExtend_insert {db db' : DB} {pid : Nat} {rp fp h ext : String}
    {jid : Nat} (hins : insert_job db pid rp fp h ext = .ok (db', jid)) :
    DbExtend db db' := by
  unfold insert_job at hins
  split at hins
  · exact absurd hins (by simp)
  · injection hins with h1
    injection h1 with h2 h3
    rw [← h2]
    exact ⟨rfl, ⟨_, rfl⟩, ⟨[], by simp⟩⟩

/-- A successful insertion preserves the key-uniqueness invariant (its
duplicate guard is exactly the key-membership test). -/
theorem insert_job_unique {db db' : DB} {pid : Nat} {rp fp h ext : String}
    {jid : Nat} (hins : insert_job db pid rp fp h ext = .ok (db', jid))
    (hu : UniqueJobKeys db) : UniqueJobKeys db' := by
  unfold insert_job at hins
  split at hins
  case isTrue => exact absurd hins (by simp)
  case isFalse hne =>
    injection hins with h1
    injection h1 with h2 h3
    rw [← h2]
    unfold UniqueJobKeys
    simp only [List.map_append, List.map_cons, List.map_nil]
    rw [List.nodup_append]
    refine ⟨hu, List.nodup_singleton _, ?_⟩
    intro k hk hk'
    rcases List.mem_singleton.mp hk' with rfl
    exact hne ((job_exists_iff_key_mem db pid h).mpr hk)

/-- The first component of `extract_zip_if_needed` is the old database
or the database with the new extraction recorded. -/
theorem extract_zip_db_cases (db : DB) (fs : FS) (project : Project)
    (p : FPath) (name : String) (node : Node) :
    (extract_zip_if_needed db fs project p name node).1 = db ∨
    (extract_zip_if_needed db fs project p name node).1 =
      record_zip_extraction db project.id (pathStr (p ++ [name])) node.digest := by
  unfold extract_zip_if_needed
  by_cases hz : zip_already_extracted db project.id (pathStr (p ++ [name]))
      node.digest = true
  · left; simp [hz]
  · cases hv : node.payloadIfValid with
    | none => left; simp [hz, hv]
    | some ms => right; simp [hz, hv]

/-- A scan-loop entry step either leaves the database alone, records
one extraction, or performs one guarded job insertion. -/
theorem processEntry_db_effect (project : Project) (p : FPath) (st : ScanState)
    (queue : List FPath) (e : FsEntry) (st' : ScanState) (queue' : List FPath)
    (hok : processEntry project p st queue e = .ok (st', queue')) :
    st'.db = st.db ∨
    (∃ zp zh, st'.db = record_zip_extraction st.db project.id zp zh) ∨
    (∃ rp fp h ext db' jid,
      insert_job st.db project.id rp fp h ext = .ok (db', jid) ∧ st'.db = db') := by
  unfold processEntry at hok
  split at hok
  · injection hok with h1; injection h1 with h2 h3; rw [← h2]; exact Or.inl rfl
  · split at hok
    · injection hok with h1; injection h1 with h2 h3; rw [← h2]; exact Or.inl rfl
    · split at hok
      · -- the .zip branch
        rcases extract_zip_db_cases st.db st.fs project p e.name e.node with
          hdb | hdb
        · split at hok <;>
            (injection hok with h1; injection h1 with h2 h3; rw [← h2];
             exact Or.inl hdb)
        · split at hok <;>
            (injection hok with h1; injection h1 with h2 h3; rw [← h2];
             exact Or.inr (Or.inl ⟨_, _, hdb⟩))
      · split at hok
        · split at hok
          · injection hok with h1; injection h1 with h2 h3; rw [← h2]
            exact Or.inl rfl
          · split at hok
            · exact absurd hok (by simp)
            · injection hok with h1; injection h1 with h2 h3; rw [← h2]
              exact Or.inr (Or.inr ⟨_, _, _, _, _, _, by assumption, rfl⟩)
        · injection hok with h1; injection h1 with h2 h3; rw [← h2]
          exact Or.inl rfl

/-- Entry steps preserve key uniqueness and extend the database. -/
theorem processEntry_unique_extend (project : Project) (p : FPath)
    (st : ScanState) (queue : List FPath) (e : FsEntry) (st' : ScanState)
    (queue' : List FPath)
    (hok : processEntry project p st queue e = .ok (st', queue')) :
    (UniqueJobKeys st.db → UniqueJobKeys st'.db) ∧ DbExtend st.db st'.db := by
  rcases processEntry_db_effect project p st queue e st' queue' hok with
    hdb | ⟨zp, zh, hdb⟩ | ⟨rp, fp, h, ext, db', jid, hins, hdb⟩
  · rw [hdb]; exact ⟨id, dbExtend_refl _⟩
  · rw [hdb]
    refine ⟨?_, dbExtend_record _ _ _ _⟩
    intro hu
    unfold UniqueJobKeys at hu ⊢
    unfold record_zip_extraction
    split
    · exact hu
    · exact hu
  · rw [hdb]
    exact ⟨insert_job_unique hins, dbExtend_insert hins⟩

/-- The entry fold preserves key uniqueness and extends the database. -/
theorem processEntries_unique_extend (project : Project) (p : FPath) :
    ∀ (es : List FsEntry) (st : ScanState) (queue : List FPath)
      (st' : ScanState) (queue' : List FPath),
      processEntries project p es st queue = .ok (st', queue') →
      (UniqueJobKeys st.db → UniqueJobKeys st'.db) ∧ DbExtend st.db st'.db
  | [], st, queue, st', queue', hok => by
    injection hok with h1
    injection h1 with h2 h3
    rw [← h2]
    exact ⟨id, dbExtend_refl _⟩
  | e :: es, st, queue, st', queue', hok => by
    unfold processEntries at hok
    cases hstep : processEntry project p st queue e with
    | error es' => rw [hstep] at hok; exact absurd hok (by simp)
    | ok out =>
      rw [hstep] at hok
      have h1 := processEntry_unique_extend project p st queue e out.1 out.2 hstep
      have h2 := processEntries_unique_extend project p es out.1 out.2 st' queue' hok
      exact ⟨fun hu => h2.1 (h1.1 hu), dbExtend_trans h1.2 h2.2⟩

/-- The scan loop preserves key uniqueness and extends the database. -/
theorem scanLoop_unique_extend (project : Project) :
    ∀ (fuel : Nat) (queue : List FPath) (st st' : ScanState),
      scanLoop project fuel queue st = .out st' →
      (UniqueJobKeys st.db → UniqueJobKeys st'.db) ∧ DbExtend st.db st'.db
  | 0, queue, st, st', hout => by
    unfold scanLoop at hout
    exact absurd hout (by simp)
  | fuel + 1, [], st, st', hout => by
    unfold scanLoop at hout
    injection hout with h1
    rw [← h1]
    exact ⟨id, dbExtend_refl _⟩
  | fuel + 1, p :: rest, st, st', hout => by
    unfold scanLoop at hout
    split at hout
    · cases hpe : processEntries project p (childrenOf st.fs p) st rest with
      | error es' => rw [hpe] at hout; exact absurd hout (by simp)
      | ok out =>
        rw [hpe] at hout
        have h1 := processEntries_unique_extend project p (childrenOf st.fs p)
          st rest out.1 out.2 hpe
        have h2 := scanLoop_unique_extend project fuel out.2 out.1 st' hout
        exact ⟨fun hu => h2.1 (h1.1 hu), dbExtend_trans h1.2 h2.2⟩
    · exact scanLoop_unique_extend project fuel rest st st' hout

/-- No supported extension is the `.zip` suffix. -/
theorem supported_contains_not_zip (s : String)
    (h : SUPPORTED_EXTENSIONS.contains s = true) : (s == ".zip") = false := by
  have hm : s ∈ SUPPORTED_EXTENSIONS := by simpa using h
  fin_cases hm <;> decide

/-- Dispatch lemma: a scan on a resolved project runs the input-root
check and then the queue loop. -/
theorem scan_project_some (fuel : Nat) (db : DB) (fs : FS)
    (origs : List (String × String)) (pid : Nat) (project : Project)
    (hp : get_project db pid = some project) :
    scan_project fuel db fs origs pid =
      if isDirAt fs project.inputPath then
        scanLoop project fuel [project.inputPath] ⟨db, fs, origs, ⟨0, 0, 0⟩⟩
      else
        .err ("Input path does not exist or is not a directory: " ++
              pathStr project.inputPath)
          ⟨db, fs, origs, ⟨0, 0, 0⟩⟩ := by
  unfold scan_project
  rw [hp]

/-- C4: content-hash deduplication. (1) A completed scan preserves the
uniqueness of the `(project_id, hash)` key over the `jobs` table and
only appends rows — so at most one job row ever exists per project and
content digest, across any number of scans. (2) Encountering a
supported file whose digest already has a job increments exactly
`skipped_existing` and creates and changes nothing (same database,
filesystem, originals store and queue). -/
theorem scan_content_dedup (fuel : Nat) (db : DB) (fs : FS)
    (origs : List (String × String)) (pid : Nat) (st : ScanState) :
    (scan_project fuel db fs origs pid = .out st → UniqueJobKeys db →
       UniqueJobKeys st.db ∧ ∃ tail, st.db.jobs = db.jobs ++ tail) ∧
    (∀ (project : Project) (p : FPath) (st0 : ScanState) (queue : List FPath)
        (e : FsEntry),
        hiddenName e.name = false → e.node.isDirNode = false →
        SUPPORTED_EXTENSIONS.contains (suffixLower e.name) = true →
        job_exists st0.db project.id e.node.digest = true →
        processEntry project p st0 queue e =
          .ok ({ st0 with summary := { st0.summary with
                   skipped_existing := st0.summary.skipped_existing + 1 } },
               queue)) := by
  constructor
  · intro hout hu
    cases hp : get_project db pid with
    | none =>
      unfold scan_project at hout
      rw [hp] at hout
      exact ScanOut.noConfusion hout
    | some project =>
      rw [scan_project_some fuel db fs origs pid project hp] at hout
      split at hout
      · have h := scanLoop_unique_extend project fuel [project.inputPath]
          ⟨db, fs, origs, ⟨0, 0, 0⟩⟩ st hout
        exact ⟨h.1 hu, h.2.2.1⟩
      · exact ScanOut.noConfusion hout
  · intro project p st0 queue e h1 h2 h3 h4
    unfold processEntry
    rw [h1, h2, supported_contains_not_zip (suffixLower e.name) h3, h3, h4]
    simp

/-- Project fixture for the dedup witness. -/
def c4project : Project := ⟨1, "p4", ["in4"], "r4", 0⟩

/-- Existing job for content digest `"h1"` under project 1. -/
def c4job : Job := ⟨1, 1, "x", "y", "done", none, 0, 0, "h1", none, ".pdf"⟩

/-- Database fixture already holding the `"h1"` job. -/
def c4db : DB := ⟨[c4project], [c4job], [], 2, 1, 1⟩

/-- Input tree fixture: the project's input root holds `a.pdf` whose
content digest `"h1"` was already ingested (at a different path). -/
def c4fs : FS := [⟨[], "in4", Node.dir⟩, ⟨["in4"], "a.pdf", Node.file "h1"⟩]

/-- Scan-state fixture with zeroed counters. -/
def c4stInit : ScanState := ⟨c4db, c4fs, [], ⟨0, 0, 0⟩⟩

/-- The state a scan of the fixture completes in. -/
def c4st : ScanState :=
  match scan_project 3 c4db c4fs [] 1 with
  | .out s => s
  | _ => c4stInit

/-- C4 witness: scanning the fixture keeps the key-uniqueness
invariant and appends nothing, and the duplicate-digest encounter
itself only bumps `skipped_existing`. -/
theorem scan_content_dedup_witness :
    (UniqueJobKeys c4st.db ∧ ∃ tail, c4st.db.jobs = c4db.jobs ++ tail) ∧
    processEntry c4project ["in4"] c4stInit [] ⟨["in4"], "a.pdf", Node.file "h1"⟩ =
      .ok ({ c4stInit with summary := { c4stInit.summary with
               skipped_existing := c4stInit.summary.skipped_existing + 1 } },
           []) :=
  ⟨(scan_content_dedup 3 c4db c4fs [] 1 c4st).1 rfl
     (by unfold UniqueJobKeys; decide),
   (scan_content_dedup 3 c4db c4fs [] 1 c4st).2 c4project ["in4"] c4stInit []
     ⟨["in4"], "a.pdf", Node.file "h1"⟩ (by decide) rfl (by decide) (by decide)⟩

/-! ## Path extension and reachability (claim C3)

The idempotence proof needs a notion of which filesystem entries a
scan can see: an entry is visible when its directory is reachable from
the scanned input root through a chain of non-hidden directory
entries.  `Ext p q` says `q` lies at or below `p`. -/

/-- `q` extends `p`: `p` is an ancestor-or-equal segment path of `q`. -/
def Ext (p q : FPath) : Prop := ∃ t, q = p ++ t

theorem ext_refl (p : FPath) : Ext p p := ⟨[], by simp⟩

theorem ext_trans {p q r : FPath} (h1 : Ext p q) (h2 : Ext q r) : Ext p r := by
  obtain ⟨t1, rfl⟩ := h1
  obtain ⟨t2, rfl⟩ := h2
  exact ⟨t1 ++ t2, by rw [List.append_assoc]⟩

theorem ext_append (p t : FPath) : Ext p (p ++ t) := ⟨t, rfl⟩

theorem ext_length {p q : FPath} (h : Ext p q) : p.length ≤ q.length := by
  obtain ⟨t, rfl⟩ := h
  simp

theorem ext_antisymm {p q : FPath} (h1 : Ext p q) (h2 : Ext q p) : p = q := by
  obtain ⟨t, rfl⟩ := h1
  have := ext_length h2
  rw [List.length_append] at this
  have ht : t.length = 0 := by omega
  rw [List.eq_nil_of_length_eq_zero ht, List.append_nil]

/-- An ancestor of a one-step extension is an ancestor of the base or
the extension itself. -/
theorem ext_snoc_inv {q p : FPath} {a : String} (h : Ext q (p ++ [a])) :
    Ext q p ∨ q = p ++ [a] := by
  obtain ⟨t, ht⟩ := h
  rcases List.eq_nil_or_concat t with rfl | ⟨t', b, rfl⟩
  · right; rw [ht, List.append_nil]
  · left
    rw [List.concat_eq_append, ← List.append_assoc] at ht
    have := List.append_inj' ht rfl
    exact ⟨t', this.1⟩

/-- A visible directory entry: some entry of `fs` places a directory
named `name` inside `p`. -/
def HasDirEntry (fs : FS) (p : FPath) (name : String) : Prop :=
  ∃ e ∈ fs, e.dir = p ∧ e.name = name ∧ e.node.isDirNode = true

/-- Snoc paths decompose uniquely. -/
theorem snoc_inj {p q : FPath} {a b : String} (h : p ++ [a] = q ++ [b]) :
    p = q ∧ a = b := by
  have := List.append_inj' h rfl
  exact ⟨this.1, by injection this.2⟩

/-- `isDirAt` at a non-root path is exactly a directory entry for its
last segment inside its parent. -/
theorem isDirAt_snoc (fs : FS) (p : FPath) (name : String) :
    isDirAt fs (p ++ [name]) = true ↔ HasDirEntry fs p name := by
  unfold isDirAt HasDirEntry
  rw [List.any_eq_true]
  constructor
  · rintro ⟨e, he, hcond⟩
    rw [Bool.and_eq_true] at hcond
    have heq : e.dir ++ [e.name] = p ++ [name] := by
      have := hcond.1
      rwa [beq_iff_eq] at this
    obtain ⟨h1, h2⟩ := snoc_inj heq
    exact ⟨e, he, h1, h2, hcond.2⟩
  · rintro ⟨e, he, h1, h2, h3⟩
    refine ⟨e, he, ?_⟩
    rw [Bool.and_eq_true, beq_iff_eq, h1, h2]
    exact ⟨rfl, h3⟩

/-- Reachability of a directory path from the scan root through
non-hidden directory entries. -/
inductive Reach (fs : FS) (root : FPath) : FPath → Prop
  | refl : Reach fs root root
  | step {p : FPath} {name : String} : Reach fs root p →
      HasDirEntry fs p name → hiddenName name = false →
      Reach fs root (p ++ [name])

theorem reach_ext {fs : FS} {root r : FPath} (h : Reach fs root r) :
    Ext root r := by
  induction h with
  | refl => exact ext_refl root
  | step hr hd hh ih => exact ext_trans ih (ext_append _ _)

/-- A reachability chain restarts from any intermediate path. -/
theorem reach_tail {fs : FS} {root r : FPath} (h : Reach fs root r) :
    ∀ q, Ext root q → Ext q r → Reach fs q r := by
  induction h with
  | refl =>
    intro q h1 h2
    rw [ext_antisymm h1 h2]
    exact Reach.refl
  | step hr hd hh ih =>
    intro q h1 h2
    rcases ext_snoc_inv h2 with hqp | rfl
    · exact Reach.step (ih q h1 hqp) hd hh
    · exact Reach.refl

/-- Any strictly intermediate point of a reachability chain is itself
a directory. -/
theorem reach_mid_isDir {fs : FS} {root r : FPath} (h : Reach fs root r) :
    ∀ q, Ext root q → Ext q r → q = root ∨ isDirAt fs q = true := by
  induction h with
  | refl =>
    intro q h1 h2
    left
    exact (ext_antisymm h1 h2).symm
  | step hr hd hh ih =>
    intro q h1 h2
    rcases ext_snoc_inv h2 with hqp | rfl
    · exact ih q h1 hqp
    · right
      exact (isDirAt_snoc _ _ _).mpr hd

/-- A chain that leaves its start passes through a visible directory
entry of the start. -/
theorem reach_first_step {fs : FS} {q r : FPath} (h : Reach fs q r)
    (hne : q ≠ r) :
    ∃ s, HasDirEntry fs q s ∧ hiddenName s = false ∧ Ext (q ++ [s]) r := by
  induction h with
  | refl => exact absurd rfl hne
  | step hr hd hh ih =>
    rename_i p name
    by_cases hpq : q = p
    · subst hpq
      exact ⟨name, hd, hh, ext_refl _⟩
    · obtain ⟨s, h1, h2, h3⟩ := ih (fun hc => hpq hc)
      exact ⟨s, h1, h2, ext_trans h3 (ext_append _ _)⟩

/-! ## What `extractall` can touch

All writes of an extraction land at keys whose directory extends the
archive's containing directory; entries outside that subtree survive
unchanged.  This localises the filesystem mutation for the
reachability transfer. -/

theorem keyIs_false_of_dir {e : FsEntry} {d : FPath} (n : String)
    (h : e.dir ≠ d) : keyIs d n e = false := by
  unfold keyIs
  simp [h]

theorem mem_fsWrite {fs : FS} {d : FPath} {n : String} {node : Node}
    {e : FsEntry} (h : e ∈ fsWrite fs d n node) : e ∈ fs ∨ e.dir = d := by
  unfold fsWrite at h
  split at h
  · rcases List.mem_map.mp h with ⟨e0, he0, heq⟩
    by_cases hk : keyIs d n e0 = true
    · right
      rw [if_pos hk] at heq
      have hd : e0.dir = d := by
        unfold keyIs at hk
        rw [Bool.and_eq_true, beq_iff_eq, beq_iff_eq] at hk
        exact hk.1
      rw [← heq]
      exact hd
    · left
      rw [if_neg hk] at heq
      rw [← heq]
      exact he0
  · rcases List.mem_append.mp h with hm | hm
    · exact Or.inl hm
    · right
      rcases List.mem_singleton.mp hm with rfl
      rfl

theorem mem_fsWrite_of {fs : FS} {d : FPath} {n : String} {node : Node}
    {e : FsEntry} (he : e ∈ fs) (hk : keyIs d n e = false) :
    e ∈ fsWrite fs d n node := by
  unfold fsWrite
  split
  · exact List.mem_map.mpr ⟨e, he, by rw [hk]; rfl⟩
  · exact List.mem_append.mpr (Or.inl he)

theorem mem_mkdirIfAbsent_self {fs : FS} {d : FPath} {n : String} {e : FsEntry}
    (he : e ∈ fs) : e ∈ mkdirIfAbsent fs d n := by
  unfold mkdirIfAbsent
  split
  · exact he
  · exact List.mem_append.mpr (Or.inl he)

theorem mem_mkdirIfAbsent {fs : FS} {d : FPath} {n : String} {e : FsEntry}
    (h : e ∈ mkdirIfAbsent fs d n) : e ∈ fs ∨ e.dir = d := by
  unfold mkdirIfAbsent at h
  split at h
  · exact Or.inl h
  · rcases List.mem_append.mp h with hm | hm
    · exact Or.inl hm
    · right
      rcases List.mem_singleton.mp hm with rfl
      rfl

theorem mem_mkdirs_self {e : FsEntry} :
    ∀ (segs : List String) (base : FPath) (fs : FS),
      e ∈ fs → e ∈ mkdirs fs base segs
  | [], _, _, he => he
  | s :: rest, base, _, he =>
    mem_mkdirs_self rest (base ++ [s]) _ (mem_mkdirIfAbsent_self he)

theorem mem_mkdirs {e : FsEntry} :
    ∀ (segs : List String) (base : FPath) (fs : FS),
      e ∈ mkdirs fs base segs → e ∈ fs ∨ Ext base e.dir
  | [], _, _, h => Or.inl h
  | s :: rest, base, fs, h => by
    rcases mem_mkdirs rest (base ++ [s]) _ h with hm | hext
    · rcases mem_mkdirIfAbsent hm with hm' | hd
      · exact Or.inl hm'
      · exact Or.inr (hd ▸ ext_refl _ : Ext base e.dir) |>.imp_left id |>.imp_right
          (fun hx => hx)
    · exact Or.inr (ext_trans (ext_append base [s]) hext)

theorem mem_writeMember {fs : FS} {target : FPath}
    {m : FPath × String × Node} {e : FsEntry}
    (h : e ∈ writeMember fs target m) : e ∈ fs ∨ Ext target e.dir := by
  unfold writeMember at h
  rcases mem_fsWrite h with hm | hd
  · rcases mem_mkdirs m.1 target fs hm with hm' | hext
    · exact Or.inl hm'
    · exact Or.inr hext
  · exact Or.inr (hd ▸ ext_append target m.1)

theorem mem_writeMember_of {fs : FS} {target : FPath}
    {m : FPath × String × Node} {e : FsEntry}
    (he : e ∈ fs) (hout : ¬ Ext target e.dir) :
    e ∈ writeMember fs target m := by
  unfold writeMember
  apply mem_fsWrite_of (mem_mkdirs_self m.1 target fs he)
  apply keyIs_false_of_dir
  intro hd
  exact hout (hd ▸ ext_append target m.1)

theorem mem_extractAll {target : FPath} {e : FsEntry} :
    ∀ (ms : List (FPath × String × Node)) (fs : FS),
      e ∈ extractAll fs target ms → e ∈ fs ∨ Ext target e.dir
  | [], _, h => Or.inl h
  | m :: ms, fs, h => by
    rcases mem_extractAll ms (writeMember fs target m) h with hm | hext
    · exact mem_writeMember hm
    · exact Or.inr hext

theorem mem_extractAll_of {target : FPath} {e : FsEntry} :
    ∀ (ms : List (FPath × String × Node)) (fs : FS),
      e ∈ fs → ¬ Ext target e.dir → e ∈ extractAll fs target ms
  | [], _, he, _ => he
  | m :: ms, fs, he, hout =>
    mem_extractAll_of ms (writeMember fs target m)
      (mem_writeMember_of he hout) hout

theorem hasDirEntry_extractAll_iff {fs : FS} {target q : FPath}
    {name : String} {ms : List (FPath × String × Node)}
    (hq : ¬ Ext target q) :
    HasDirEntry (extractAll fs target ms) q name ↔ HasDirEntry fs q name := by
  constructor
  · rintro ⟨e, he, hdir, hn, hd⟩
    rcases mem_extractAll ms fs he with hm | hext
    · exact ⟨e, hm, hdir, hn, hd⟩
    · exact absurd (hdir ▸ hext) hq
  · rintro ⟨e, he, hdir, hn, hd⟩
    exact ⟨e, mem_extractAll_of ms fs he (by rw [hdir]; exact hq), hdir, hn, hd⟩

theorem reach_extractAll_of {fs : FS} {target root r : FPath}
    {ms : List (FPath × String × Node)}
    (h : Reach fs root r) (hr : ¬ Ext target r) :
    Reach (extractAll fs target ms) root r := by
  induction h with
  | refl => exact Reach.refl
  | step hp hd hh ih =>
    rename_i p name
    have hpne : ¬ Ext target p :=
      fun hc => hr (ext_trans hc (ext_append p [name]))
    exact Reach.step (ih hpne)
      ((hasDirEntry_extractAll_iff hpne).mpr hd) hh

theorem reach_extractAll_inv {fs : FS} {target root r : FPath}
    {ms : List (FPath × String × Node)}
    (h : Reach (extractAll fs target ms) root r) (hr : ¬ Ext target r) :
    Reach fs root r := by
  induction h with
  | refl => exact Reach.refl
  | step hp hd hh ih =>
    rename_i p name
    have hpne : ¬ Ext target p :=
      fun hc => hr (ext_trans hc (ext_append p [name]))
    exact Reach.step (ih hpne)
      ((hasDirEntry_extractAll_iff hpne).mp hd) hh

/-- The scan root stays a directory across an extraction into any
directory of its subtree: the root's own entry cannot be overwritten. -/
theorem rootDir_extractAll {fs : FS} {root target : FPath}
    {ms : List (FPath × String × Node)}
    (hroot : isDirAt fs root = true) (hne : root ≠ [])
    (hext : Ext root target) :
    isDirAt (extractAll fs target ms) root = true := by
  rcases List.eq_nil_or_concat root with rfl | ⟨p, a, rfl⟩
  · exact absurd rfl hne
  · rw [List.concat_eq_append] at hroot hext ⊢
    rw [isDirAt_snoc] at hroot ⊢
    refine (hasDirEntry_extractAll_iff ?_).mpr hroot
    intro hc
    have h1 := ext_length hext
    have h2 := ext_length hc
    simp only [List.length_append, List.length_singleton] at h1
    omega

/-! ## The scan invariant (claim C3)

After a completed scan, every visible (reachable, non-hidden) entry is
handled: a supported file's digest has a job row, and a valid archive
has an extraction record for its `(path, digest)`.  A second scan over
the unchanged tree and store then finds every per-file and per-archive
guard already satisfied, so it creates no job and expands no archive. -/

/-- The scan has dealt with this entry: if it is a supported file its
digest is ingested, and if it is a valid archive its extraction is
recorded.  Directory entries (and unsupported or invalid-archive
files) need nothing. -/
def EntryHandled (db : DB) (pid : Nat) (e : FsEntry) : Prop :=
  e.node.isDirNode = false →
  ((SUPPORTED_EXTENSIONS.contains (suffixLower e.name) = true →
      job_exists db pid e.node.digest = true) ∧
   (suffixLower e.name = ".zip" →
      ∀ ms, e.node.payloadIfValid = some ms →
        zip_already_extracted db pid (pathStr (e.dir ++ [e.name]))
          e.node.digest = true))

theorem job_exists_extend {db db' : DB} {pid : Nat} {x : String}
    (h : DbExtend db db') (hj : job_exists db pid x = true) :
    job_exists db' pid x = true := by
  obtain ⟨_, ⟨t, hjobs⟩, _⟩ := h
  unfold job_exists at hj ⊢
  rw [hjobs, List.any_append, hj, Bool.true_or]

theorem zip_already_extend {db db' : DB} {pid : Nat} {zp zh : String}
    (h : DbExtend db db') (hz : zip_already_extracted db pid zp zh = true) :
    zip_already_extracted db' pid zp zh = true := by
  obtain ⟨_, _, ⟨t, hzips⟩⟩ := h
  unfold zip_already_extracted at hz ⊢
  rw [hzips, List.any_append, hz, Bool.true_or]

theorem entryHandled_extend {db db' : DB} {pid : Nat} {e : FsEntry}
    (h : DbExtend db db') (he : EntryHandled db pid e) :
    EntryHandled db' pid e := by
  intro hnd
  refine ⟨fun hc => job_exists_extend h ((he hnd).1 hc),
          fun hz ms hms => zip_already_extend h ((he hnd).2 hz ms hms)⟩

/-- All pending queue members lie under the scan root. -/
def QueueExt (root : FPath) (queue : List FPath) : Prop :=
  ∀ q ∈ queue, Ext root q

/-- The outer loop invariant: every visible entry is handled or still
below a queued directory. -/
def ScanInv (pid : Nat) (root : FPath) (db : DB) (fs : FS)
    (queue : List FPath) : Prop :=
  ∀ e ∈ fs, Reach fs root e.dir → hiddenName e.name = false →
    EntryHandled db pid e ∨ ∃ q ∈ queue, Ext q e.dir

/-- The scan postcondition: every visible entry is handled. -/
def ScanComplete (pid : Nat) (root : FPath) (db : DB) (fs : FS) : Prop :=
  ∀ e ∈ fs, Reach fs root e.dir → hiddenName e.name = false →
    EntryHandled db pid e

/-- The inner (directory-entry) fold invariant: every visible entry is
handled, below a queued directory, one of the still-unprocessed
snapshot entries of the current directory, or below a directory that a
still-unprocessed snapshot entry will enqueue. -/
def EntriesInv (pid : Nat) (root pcur : FPath) (db : DB) (fs : FS)
    (queue : List FPath) (es : List FsEntry) : Prop :=
  ∀ e ∈ fs, Reach fs root e.dir → hiddenName e.name = false →
    EntryHandled db pid e ∨ (∃ q ∈ queue, Ext q e.dir) ∨
    (e.dir = pcur ∧ e ∈ es) ∨
    (∃ h ∈ es, h.dir = pcur ∧ h.node.isDirNode = true ∧
       hiddenName h.name = false ∧ Ext (pcur ++ [h.name]) e.dir)

/-- A non-extracting call of `extract_zip_if_needed` changes nothing. -/
theorem extract_false_eq {db : DB} {fs : FS} {project : Project} {p : FPath}
    {name : String} {node : Node}
    (h : (extract_zip_if_needed db fs project p name node).2.2 = false) :
    extract_zip_if_needed db fs project p name node = (db, fs, false) := by
  by_cases hz : zip_already_extracted db project.id (pathStr (p ++ [name]))
      node.digest = true
  · unfold extract_zip_if_needed
    rw [if_pos hz]
  · cases hv : node.payloadIfValid with
    | none =>
      unfold extract_zip_if_needed
      rw [if_neg hz, hv]
    | some ms =>
      exfalso
      unfold extract_zip_if_needed at h
      rw [if_neg hz, hv] at h
      simp at h

/-- A non-extracting call on a valid archive means the archive was
already recorded. -/
theorem extract_false_recorded {db : DB} {fs : FS} {project : Project}
    {p : FPath} {name : String} {node : Node}
    (h : (extract_zip_if_needed db fs project p name node).2.2 = false) :
    ∀ ms, node.payloadIfValid = some ms →
      zip_already_extracted db project.id (pathStr (p ++ [name]))
        node.digest = true := by
  intro ms hms
  unfold extract_zip_if_needed at h
  split at h
  · assumption
  · rw [hms] at h
    exact absurd h (by simp)

/-- An extracting call expands a valid unrecorded archive and records
it. -/
theorem extract_true_eq {db : DB} {fs : FS} {project : Project} {p : FPath}
    {name : String} {node : Node}
    (h : (extract_zip_if_needed db fs project p name node).2.2 = true) :
    ∃ ms, node.payloadIfValid = some ms ∧
      zip_already_extracted db project.id (pathStr (p ++ [name]))
        node.digest = false ∧
      extract_zip_if_needed db fs project p name node =
        (record_zip_extraction db project.id (pathStr (p ++ [name]))
           node.digest,
         extractAll fs p ms, true) := by
  unfold extract_zip_if_needed at h ⊢
  split at h
  · exact absurd h (by simp)
  · cases hv : node.payloadIfValid with
    | none => rw [hv] at h; exact absurd h (by simp)
    | some ms =>
      refine ⟨ms, rfl, by simp_all, ?_⟩
      rw [if_neg (by simp_all)]

/-- The inserted row immediately satisfies the duplicate guard. -/
theorem job_exists_insert_self {db db' : DB} {pid : Nat} {rp fp h ext : String}
    {jid : Nat} (hins : insert_job db pid rp fp h ext = .ok (db', jid)) :
    job_exists db' pid h = true := by
  unfold insert_job at hins
  split at hins
  · exact absurd hins (by simp)
  · injection hins with h1
    injection h1 with h2 h3
    rw [← h2]
    unfold job_exists
    simp

/-- Processing one snapshot entry of the current directory preserves
the fold invariant: the entry becomes handled, enqueued-covered, or
was skipped as hidden; extraction re-enqueues the current directory,
which covers everything the archive wrote. -/
theorem processEntry_inv (project : Project) (root pcur : FPath)
    (st : ScanState) (queue : List FPath) (e0 : FsEntry) (es : List FsEntry)
    (st' : ScanState) (queue' : List FPath)
    (hd0 : e0.dir = pcur)
    (hok : processEntry project pcur st queue e0 = .ok (st', queue'))
    (hinv : EntriesInv project.id root pcur st.db st.fs queue (e0 :: es))
    (hqe : QueueExt root queue) (hpc : Ext root pcur)
    (hrd : isDirAt st.fs root = true) (hrne : root ≠ []) :
    EntriesInv project.id root pcur st'.db st'.fs queue' es ∧
    QueueExt root queue' ∧ isDirAt st'.fs root = true := by
  unfold processEntry at hok
  by_cases hh : hiddenName e0.name = true
  · -- hidden entries are skipped entirely
    rw [if_pos hh] at hok
    injection hok with h1
    injection h1 with h2 h3
    subst h2; subst h3
    refine ⟨?_, hqe, hrd⟩
    intro e he hre hhe
    rcases hinv e he hre hhe with h | h | ⟨hdir, hmem⟩ | ⟨h, hmemh, hdirh, hdnode, hhid, hext⟩
    · exact Or.inl h
    · exact Or.inr (Or.inl h)
    · rcases List.mem_cons.mp hmem with rfl | hmem'
      · rw [hh] at hhe; exact Bool.noConfusion hhe
      · exact Or.inr (Or.inr (Or.inl ⟨hdir, hmem'⟩))
    · rcases List.mem_cons.mp hmemh with rfl | hmem'
      · rw [hh] at hhid; exact Bool.noConfusion hhid
      · exact Or.inr (Or.inr (Or.inr ⟨h, hmem', hdirh, hdnode, hhid, hext⟩))
  · rw [if_neg hh] at hok
    by_cases hd : e0.node.isDirNode = true
    · -- subdirectories are enqueued
      rw [if_pos hd] at hok
      injection hok with h1
      injection h1 with h2 h3
      subst h2; subst h3
      refine ⟨?_, ?_, hrd⟩
      · intro e he hre hhe
        rcases hinv e he hre hhe with h | ⟨q, hq, hqx⟩ | ⟨hdir, hmem⟩ |
          ⟨h, hmemh, hdirh, hdnode, hhid, hext⟩
        · exact Or.inl h
        · exact Or.inr (Or.inl ⟨q, List.mem_append.mpr (Or.inl hq), hqx⟩)
        · rcases List.mem_cons.mp hmem with rfl | hmem'
          · exact Or.inl (fun hnd => absurd hd (by rw [hnd]; simp))
          · exact Or.inr (Or.inr (Or.inl ⟨hdir, hmem'⟩))
        · rcases List.mem_cons.mp hmemh with rfl | hmem'
          · exact Or.inr (Or.inl ⟨pcur ++ [h.name],
              List.mem_append.mpr (Or.inr (List.mem_singleton.mpr rfl)), hext⟩)
          · exact Or.inr (Or.inr (Or.inr ⟨h, hmem', hdirh, hdnode, hhid, hext⟩))
      · intro q hq
        rcases List.mem_append.mp hq with hq' | hq'
        · exact hqe q hq'
        · rcases List.mem_singleton.mp hq' with rfl
          exact ext_trans hpc (ext_append _ _)
    · rw [if_neg hd] at hok
      by_cases hz : (suffixLower e0.name == ".zip") = true
      · -- archive branch
        rw [if_pos hz] at hok
        have hzeq : suffixLower e0.name = ".zip" := by rwa [beq_iff_eq] at hz
        by_cases hx : (extract_zip_if_needed st.db st.fs project pcur e0.name
            e0.node).2.2 = true
        · -- extracted now: the current directory is re-enqueued
          obtain ⟨ms, hms, hrec, hfeq⟩ := extract_true_eq hx
          rw [if_pos hx, hfeq] at hok
          injection hok with h1
          injection h1 with h2 h3
          subst h2; subst h3
          have hdbx : DbExtend st.db
              (record_zip_extraction st.db project.id
                (pathStr (pcur ++ [e0.name])) e0.node.digest) :=
            dbExtend_record _ _ _ _
          refine ⟨?_, ?_, ?_⟩
          · intro e he hre hhe
            by_cases hext : Ext pcur e.dir
            · exact Or.inr (Or.inl ⟨pcur,
                List.mem_append.mpr (Or.inr (List.mem_singleton.mpr rfl)), hext⟩)
            · have hefs : e ∈ st.fs := by
                rcases mem_extractAll ms st.fs he with hm | hm
                · exact hm
                · exact absurd hm hext
              have hre' : Reach st.fs root e.dir := reach_extractAll_inv hre hext
              rcases hinv e hefs hre' hhe with h | ⟨q, hq, hqx⟩ | ⟨hdir, hmem⟩ |
                ⟨h, hmemh, hdirh, hdnode, hhid, hextq⟩
              · exact Or.inl (entryHandled_extend hdbx h)
              · exact Or.inr (Or.inl ⟨q, List.mem_append.mpr (Or.inl hq), hqx⟩)
              · exact absurd (hdir ▸ ext_refl pcur : Ext pcur e.dir) hext
              · rcases List.mem_cons.mp hmemh with rfl | hmem'
                · exact absurd hdnode hd
                · exact Or.inr (Or.inr (Or.inr ⟨h, hmem', hdirh, hdnode, hhid,
                    hextq⟩))
          · intro q hq
            rcases List.mem_append.mp hq with hq' | hq'
            · exact hqe q hq'
            · rcases List.mem_singleton.mp hq' with rfl
              exact hpc
          · exact rootDir_extractAll hrd hrne hpc
        · -- already recorded or invalid: nothing changes
          have hx' : (extract_zip_if_needed st.db st.fs project pcur e0.name
              e0.node).2.2 = false := by
            cases hb : (extract_zip_if_needed st.db st.fs project pcur e0.name
                e0.node).2.2
            · rfl
            · exact absurd hb hx
          have hfeq := extract_false_eq hx'
          rw [if_neg hx, hfeq] at hok
          injection hok with h1
          injection h1 with h2 h3
          subst h2; subst h3
          refine ⟨?_, hqe, hrd⟩
          intro e he hre hhe
          rcases hinv e he hre hhe with h | h | ⟨hdir, hmem⟩ |
            ⟨h, hmemh, hdirh, hdnode, hhid, hext⟩
          · exact Or.inl h
          · exact Or.inr (Or.inl h)
          · rcases List.mem_cons.mp hmem with rfl | hmem'
            · refine Or.inl (fun hnd => ⟨fun hc => ?_, fun _ ms hms => ?_⟩)
              · rw [hzeq] at hc
                exact absurd hc (by decide)
              · have := extract_false_recorded hx' ms hms
                rwa [hd0]
            · exact Or.inr (Or.inr (Or.inl ⟨hdir, hmem'⟩))
          · rcases List.mem_cons.mp hmemh with rfl | hmem'
            · exact absurd hdnode hd
            · exact Or.inr (Or.inr (Or.inr ⟨h, hmem', hdirh, hdnode, hhid, hext⟩))
      · rw [if_neg hz] at hok
        by_cases hs : SUPPORTED_EXTENSIONS.contains (suffixLower e0.name) = true
        · rw [if_pos hs] at hok
          by_cases hje : job_exists st.db project.id e0.node.digest = true
          · -- duplicate digest: only the counter moves
            rw [if_pos hje] at hok
            injection hok with h1
            injection h1 with h2 h3
            subst h2; subst h3
            refine ⟨?_, hqe, hrd⟩
            intro e he hre hhe
            rcases hinv e he hre hhe with h | h | ⟨hdir, hmem⟩ |
              ⟨h, hmemh, hdirh, hdnode, hhid, hext⟩
            · exact Or.inl h
            · exact Or.inr (Or.inl h)
            · rcases List.mem_cons.mp hmem with rfl | hmem'
              · exact Or.inl (fun _ => ⟨fun _ => hje,
                  fun hzz => absurd (hzz ▸ hs) (by decide)⟩)
              · exact Or.inr (Or.inr (Or.inl ⟨hdir, hmem'⟩))
            · rcases List.mem_cons.mp hmemh with rfl | hmem'
              · exact absurd hdnode hd
              · exact Or.inr (Or.inr (Or.inr ⟨h, hmem', hdirh, hdnode, hhid,
                  hext⟩))
          · -- fresh digest: copy and insert
            rw [if_neg hje] at hok
            cases hins : insert_job st.db project.id
                (e0.node.digest ++ "_" ++ e0.name)
                (project.rootPath ++ "/originals/" ++
                  (e0.node.digest ++ "_" ++ e0.name))
                e0.node.digest (suffixLower e0.name) with
            | error msg =>
              rw [hins] at hok
              exact Except.noConfusion hok
            | ok pr =>
              obtain ⟨db', jid⟩ := pr
              rw [hins] at hok
              injection hok with h1
              injection h1 with h2 h3
              subst h2; subst h3
              refine ⟨?_, hqe, hrd⟩
              intro e he hre hhe
              rcases hinv e he hre hhe with h | h | ⟨hdir, hmem⟩ |
                ⟨h, hmemh, hdirh, hdnode, hhid, hext⟩
              · exact Or.inl (entryHandled_extend (dbExtend_insert hins) h)
              · exact Or.inr (Or.inl h)
              · rcases List.mem_cons.mp hmem with rfl | hmem'
                · refine Or.inl (fun _ => ⟨fun _ => job_exists_insert_self hins,
                    fun hzz => ?_⟩)
                  rw [hzz] at hz
                  exact absurd (by simp : ((".zip" : String) == ".zip") = true) hz
                · exact Or.inr (Or.inr (Or.inl ⟨hdir, hmem'⟩))
              · rcases List.mem_cons.mp hmemh with rfl | hmem'
                · exact absurd hdnode hd
                · exact Or.inr (Or.inr (Or.inr ⟨h, hmem', hdirh, hdnode, hhid,
                    hext⟩))
        · -- ignored extension
          rw [if_neg hs] at hok
          injection hok with h1
          injection h1 with h2 h3
          subst h2; subst h3
          refine ⟨?_, hqe, hrd⟩
          intro e he hre hhe
          rcases hinv e he hre hhe with h | h | ⟨hdir, hmem⟩ |
            ⟨h, hmemh, hdirh, hdnode, hhid, hext⟩
          · exact Or.inl h
          · exact Or.inr (Or.inl h)
          · rcases List.mem_cons.mp hmem with rfl | hmem'
            · refine Or.inl (fun _ => ⟨fun hc => absurd hc hs, fun hzz => ?_⟩)
              rw [hzz] at hz
              exact absurd (by simp : ((".zip" : String) == ".zip") = true) hz
            · exact Or.inr (Or.inr (Or.inl ⟨hdir, hmem'⟩))
          · rcases List.mem_cons.mp hmemh with rfl | hmem'
            · exact absurd hdnode hd
            · exact Or.inr (Or.inr (Or.inr ⟨h, hmem', hdirh, hdnode, hhid, hext⟩))

/-- Folding the invariant over a directory's snapshot restores the
outer loop invariant. -/
theorem processEntries_inv (project : Project) (root pcur : FPath) :
    ∀ (es : List FsEntry) (st : ScanState) (queue : List FPath)
      (st' : ScanState) (queue' : List FPath),
      (∀ h ∈ es, h.dir = pcur) →
      processEntries project pcur es st queue = .ok (st', queue') →
      EntriesInv project.id root pcur st.db st.fs queue es →
      QueueExt root queue → Ext root pcur →
      isDirAt st.fs root = true → root ≠ [] →
      ScanInv project.id root st'.db st'.fs queue' ∧
      QueueExt root queue' ∧ isDirAt st'.fs root = true
  | [], st, queue, st', queue', _, hok, hinv, hqe, hpc, hrd, hrne => by
    injection hok with h1
    injection h1 with h2 h3
    subst h2; subst h3
    refine ⟨?_, hqe, hrd⟩
    intro e he hre hhe
    rcases hinv e he hre hhe with h | h | ⟨_, hmem⟩ | ⟨w, hmemw, _⟩
    · exact Or.inl h
    · exact Or.inr h
    · exact absurd hmem (List.not_mem_nil e)
    · exact absurd hmemw (List.not_mem_nil w)
  | e :: es, st, queue, st', queue', hdirs, hok, hinv, hqe, hpc, hrd, hrne => by
    unfold processEntries at hok
    cases hstep : processEntry project pcur st queue e with
    | error pr =>
      rw [hstep] at hok
      exact Except.noConfusion hok
    | ok out =>
      obtain ⟨st1, queue1⟩ := out
      rw [hstep] at hok
      have h1 := processEntry_inv project root pcur st queue e es st1 queue1
        (hdirs e (List.mem_cons_self e es)) hstep hinv hqe hpc hrd hrne
      exact processEntries_inv project root pcur es st1 queue1 st' queue'
        (fun w hm => hdirs w (List.mem_cons_of_mem e hm)) hok h1.1 h1.2.1 hpc
        h1.2.2 hrne

/-- The queue loop carries the invariant to its completion: on normal
termination every visible entry is handled. -/
theorem scanLoop_inv (project : Project) (root : FPath) :
    ∀ (fuel : Nat) (queue : List FPath) (st st' : ScanState),
      scanLoop project fuel queue st = .out st' →
      ScanInv project.id root st.db st.fs queue →
      QueueExt root queue →
      isDirAt st.fs root = true → root ≠ [] →
      ScanComplete project.id root st'.db st'.fs
  | 0, queue, st, st', hout, _, _, _, _ => by
    unfold scanLoop at hout
    exact ScanOut.noConfusion hout
  | fuel + 1, [], st, st', hout, hinv, hqe, hrd, hrne => by
    unfold scanLoop at hout
    injection hout with h1
    subst h1
    intro e he hre hhe
    rcases hinv e he hre hhe with h | ⟨q, hq, _⟩
    · exact h
    · exact absurd hq (List.not_mem_nil q)
  | fuel + 1, p :: rest, st, st', hout, hinv, hqe, hrd, hrne => by
    unfold scanLoop at hout
    split at hout
    case isTrue hdir =>
      cases hpe : processEntries project p (childrenOf st.fs p) st rest with
      | error pr =>
        rw [hpe] at hout
        exact ScanOut.noConfusion hout
      | ok out =>
        obtain ⟨st1, queue1⟩ := out
        rw [hpe] at hout
        have hpmem : Ext root p := hqe p (List.mem_cons_self p rest)
        have hentries : EntriesInv project.id root p st.db st.fs rest
            (childrenOf st.fs p) := by
          intro e he hre hhe
          rcases hinv e he hre hhe with h | ⟨q, hq, hqx⟩
          · exact Or.inl h
          · rcases List.mem_cons.mp hq with rfl | hqrest
            · by_cases heq : q = e.dir
              · refine Or.inr (Or.inr (Or.inl ⟨heq.symm, ?_⟩))
                unfold childrenOf
                exact List.mem_filter.mpr ⟨he, by rw [heq.symm]; simp⟩
              · have hrp : Reach st.fs q e.dir := reach_tail hre q hpmem hqx
                obtain ⟨s, hdse, hhs, hexts⟩ := reach_first_step hrp heq
                obtain ⟨w, hw, hwdir, hwname, hwnode⟩ := hdse
                refine Or.inr (Or.inr (Or.inr ⟨w, ?_, hwdir, hwnode, ?_, ?_⟩))
                · unfold childrenOf
                  exact List.mem_filter.mpr ⟨hw, by rw [hwdir]; simp⟩
                · rw [hwname]; exact hhs
                · rw [hwname]; exact hexts
            · exact Or.inr (Or.inl ⟨q, hqrest, hqx⟩)
        have hchildren : ∀ w ∈ childrenOf st.fs p, w.dir = p := by
          intro w hm
          have hc := (List.mem_filter.mp hm).2
          rwa [beq_iff_eq] at hc
        have h2 := processEntries_inv project root p (childrenOf st.fs p) st
          rest st1 queue1 hchildren hpe hentries
          (fun q hq => hqe q (List.mem_cons_of_mem p hq)) hpmem hrd hrne
        exact scanLoop_inv project root fuel queue1 st1 st' hout h2.1 h2.2.1
          h2.2.2 hrne
    case isFalse hdir =>
      refine scanLoop_inv project root fuel rest st st' hout ?_
        (fun q hq => hqe q (List.mem_cons_of_mem p hq)) hrd hrne
      intro e he hre hhe
      rcases hinv e he hre hhe with h | ⟨q, hq, hqx⟩
      · exact Or.inl h
      · rcases List.mem_cons.mp hq with rfl | hqrest
        · rcases reach_mid_isDir hre q (hqe q (List.mem_cons_self q rest)) hqx
            with rfl | hpd
          · exact absurd hrd hdir
          · exact absurd hpd hdir
        · exact Or.inr ⟨q, hqrest, hqx⟩

/-- A completed scan leaves every visible entry of the final tree
handled in the final store, and only extends the database. -/
theorem scan_out_complete (fuel : Nat) (db : DB) (fs : FS)
    (origs : List (String × String)) (pid : Nat) (project : Project)
    (st : ScanState)
    (hp : get_project db pid = some project)
    (hout : scan_project fuel db fs origs pid = .out st) :
    ScanComplete project.id project.inputPath st.db st.fs ∧ DbExtend db st.db := by
  rw [scan_project_some fuel db fs origs pid project hp] at hout
  split at hout
  case isTrue hdir =>
    have hrne : project.inputPath ≠ [] := by
      intro hnil
      rw [hnil] at hdir
      unfold isDirAt at hdir
      rcases List.any_eq_true.mp hdir with ⟨e, he, hcond⟩
      rw [Bool.and_eq_true, beq_iff_eq] at hcond
      exact absurd hcond.1 (by simp)
    constructor
    · refine scanLoop_inv project project.inputPath fuel [project.inputPath]
        ⟨db, fs, origs, ⟨0, 0, 0⟩⟩ st hout ?_ ?_ hdir hrne
      · intro e he hre hhe
        exact Or.inr ⟨project.inputPath, List.mem_singleton.mpr rfl,
          reach_ext hre⟩
      · intro q hq
        rcases List.mem_singleton.mp hq with rfl
        exact ext_refl _
    · exact (scanLoop_unique_extend project fuel [project.inputPath]
        ⟨db, fs, origs, ⟨0, 0, 0⟩⟩ st hout).2
  case isFalse => exact ScanOut.noConfusion hout

/-- An archive whose valid payload is already recorded (and any
invalid archive) makes `extract_zip_if_needed` a no-op. -/
theorem extract_noop_of_handled (db : DB) (fs : FS) (project : Project)
    (p : FPath) (name : String) (node : Node)
    (hrec : ∀ ms, node.payloadIfValid = some ms →
      zip_already_extracted db project.id (pathStr (p ++ [name]))
        node.digest = true) :
    extract_zip_if_needed db fs project p name node = (db, fs, false) := by
  unfold extract_zip_if_needed
  by_cases hz : zip_already_extracted db project.id (pathStr (p ++ [name]))
      node.digest = true
  · rw [if_pos hz]
  · rw [if_neg hz]
    cases hv : node.payloadIfValid with
    | none => rfl
    | some ms => exact absurd (hrec ms hv) hz

/-- Over a completed store, processing any visible entry changes
neither the database nor the filesystem, creates no job and expands no
archive; it can only enqueue reachable subdirectories. -/
theorem processEntry_noop (project : Project) (root p : FPath)
    (st : ScanState) (queue : List FPath) (e : FsEntry)
    (hcomp : ScanComplete project.id root st.db st.fs)
    (hdir : e.dir = p) (he : e ∈ st.fs) (hre : Reach st.fs root p) :
    ∃ st' queue', processEntry project p st queue e = .ok (st', queue') ∧
      st'.db = st.db ∧ st'.fs = st.fs ∧
      st'.summary.new_jobs = st.summary.new_jobs ∧
      st'.summary.zip_extracted = st.summary.zip_extracted ∧
      ∀ q ∈ queue', q ∈ queue ∨ Reach st.fs root q := by
  unfold processEntry
  by_cases hh : hiddenName e.name = true
  · rw [if_pos hh]
    exact ⟨st, queue, rfl, rfl, rfl, rfl, rfl, fun q hq => Or.inl hq⟩
  · rw [if_neg hh]
    have hhe : hiddenName e.name = false := by
      cases hb : hiddenName e.name
      · rfl
      · exact absurd hb hh
    have hree : Reach st.fs root e.dir := by rw [hdir]; exact hre
    by_cases hd : e.node.isDirNode = true
    · rw [if_pos hd]
      refine ⟨st, queue ++ [p ++ [e.name]], rfl, rfl, rfl, rfl, rfl, ?_⟩
      intro q hq
      rcases List.mem_append.mp hq with hq' | hq'
      · exact Or.inl hq'
      · rcases List.mem_singleton.mp hq' with rfl
        exact Or.inr (Reach.step hre ⟨e, he, hdir, rfl, hd⟩ hhe)
    · rw [if_neg hd]
      have hhandled := hcomp e he hree hhe
      have hnd : e.node.isDirNode = false := by
        cases hb : e.node.isDirNode
        · rfl
        · exact absurd hb hd
      by_cases hz : (suffixLower e.name == ".zip") = true
      · rw [if_pos hz]
        have hzeq : suffixLower e.name = ".zip" := by rwa [beq_iff_eq] at hz
        have hrec : ∀ ms, e.node.payloadIfValid = some ms →
            zip_already_extracted st.db project.id
              (pathStr (p ++ [e.name])) e.node.digest = true := by
          intro ms hms
          have := (hhandled hnd).2 hzeq ms hms
          rwa [hdir] at this
        have hfeq := extract_noop_of_handled st.db st.fs project p e.name
          e.node hrec
        rw [hfeq]
        simp only [if_neg]
        exact ⟨{ st with db := st.db, fs := st.fs }, queue, by rw [if_neg (by simp)],
          rfl, rfl, rfl, rfl, fun q hq => Or.inl hq⟩
      · rw [if_neg hz]
        by_cases hs : SUPPORTED_EXTENSIONS.contains (suffixLower e.name) = true
        · rw [if_pos hs]
          have hje := (hhandled hnd).1 hs
          rw [if_pos hje]
          exact ⟨_, queue, rfl, rfl, rfl, rfl, rfl, fun q hq => Or.inl hq⟩
        · rw [if_neg hs]
          exact ⟨st, queue, rfl, rfl, rfl, rfl, rfl, fun q hq => Or.inl hq⟩

/-- The snapshot fold over a completed store is a no-op apart from
enqueueing reachable directories. -/
theorem processEntries_noop (project : Project) (root p : FPath) :
    ∀ (es : List FsEntry) (st : ScanState) (queue : List FPath),
      ScanComplete project.id root st.db st.fs →
      (∀ w ∈ es, w.dir = p ∧ w ∈ st.fs) →
      Reach st.fs root p →
      ∃ st' queue', processEntries project p es st queue = .ok (st', queue') ∧
        st'.db = st.db ∧ st'.fs = st.fs ∧
        st'.summary.new_jobs = st.summary.new_jobs ∧
        st'.summary.zip_extracted = st.summary.zip_extracted ∧
        ∀ q ∈ queue', q ∈ queue ∨ Reach st.fs root q
  | [], st, queue, _, _, _ =>
    ⟨st, queue, rfl, rfl, rfl, rfl, rfl, fun q hq => Or.inl hq⟩
  | e :: es, st, queue, hcomp, hes, hre => by
    obtain ⟨st1, queue1, hstep, hdb1, hfs1, hnew1, hzip1, hq1⟩ :=
      processEntry_noop project root p st queue e hcomp
        (hes e (List.mem_cons_self e es)).1 (hes e (List.mem_cons_self e es)).2
        hre
    have hcomp1 : ScanComplete project.id root st1.db st1.fs := by
      rw [hdb1, hfs1]; exact hcomp
    obtain ⟨st2, queue2, hfold, hdb2, hfs2, hnew2, hzip2, hq2⟩ :=
      processEntries_noop project root p es st1 queue1 hcomp1
        (fun w hm => by
          rw [hfs1]
          exact hes w (List.mem_cons_of_mem e hm))
        (by rw [hfs1]; exact hre)
    refine ⟨st2, queue2, ?_, by rw [hdb2, hdb1], by rw [hfs2, hfs1],
      by rw [hnew2, hnew1], by rw [hzip2, hzip1], ?_⟩
    · unfold processEntries
      rw [hstep]
      exact hfold
    · intro q hq
      rcases hq2 q hq with hq' | hq'
      · rcases hq1 q hq' with h | h
        · exact Or.inl h
        · exact Or.inr h
      · rw [hfs1] at hq'
        exact Or.inr hq'

/-- Over a completed store the whole queue loop leaves the `new_jobs`
and `zip_extracted` counters untouched. -/
theorem scanLoop_noop (project : Project) (root : FPath) :
    ∀ (fuel : Nat) (queue : List FPath) (st st' : ScanState),
      ScanComplete project.id root st.db st.fs →
      (∀ q ∈ queue, Reach st.fs root q) →
      scanLoop project fuel queue st = .out st' →
      st'.summary.new_jobs = st.summary.new_jobs ∧
      st'.summary.zip_extracted = st.summary.zip_extracted
  | 0, queue, st, st', _, _, hout => by
    unfold scanLoop at hout
    exact ScanOut.noConfusion hout
  | fuel + 1, [], st, st', _, _, hout => by
    unfold scanLoop at hout
    injection hout with h1
    subst h1
    exact ⟨rfl, rfl⟩
  | fuel + 1, p :: rest, st, st', hcomp, hqs, hout => by
    unfold scanLoop at hout
    split at hout
    case isTrue hdir =>
      obtain ⟨st1, queue1, hfold, hdb1, hfs1, hnew1, hzip1, hq1⟩ :=
        processEntries_noop project root p (childrenOf st.fs p) st rest hcomp
          (fun w hm => ⟨by
              have hc := (List.mem_filter.mp hm).2
              rwa [beq_iff_eq] at hc,
            (List.mem_filter.mp hm).1⟩)
          (hqs p (List.mem_cons_self p rest))
      rw [hfold] at hout
      have h2 := scanLoop_noop project root fuel queue1 st1 st'
        (by rw [hdb1, hfs1]; exact hcomp)
        (fun q hq => by
          rw [hfs1]
          rcases hq1 q hq with h | h
          · exact hqs q (List.mem_cons_of_mem p h)
          · exact h)
        hout
      exact ⟨by rw [h2.1, hnew1], by rw [h2.2, hzip1]⟩
    case isFalse hdir =>
      exact scanLoop_noop project root fuel rest st st' hcomp
        (fun q hq => hqs q (List.mem_cons_of_mem p hq)) hout

/-- C3: scanning twice in a row is idempotent.  If a scan of a project
completes with state `st1`, a second completed scan over the then
current tree and store (the files the first scan extracted included)
reports `new_jobs = 0` and `zip_extracted = 0`. -/
theorem scan_project_idempotent (fuel1 fuel2 : Nat) (db : DB) (fs : FS)
    (origs origs1 : List (String × String)) (pid : Nat) (st1 st2 : ScanState)
    (h1 : scan_project fuel1 db fs origs pid = .out st1)
    (h2 : scan_project fuel2 st1.db st1.fs origs1 pid = .out st2) :
    st2.summary.new_jobs = 0 ∧ st2.summary.zip_extracted = 0 := by
  cases hp : get_project db pid with
  | none =>
    unfold scan_project at h1
    rw [hp] at h1
    exact ScanOut.noConfusion h1
  | some project =>
    obtain ⟨hcomp, hdbe⟩ := scan_out_complete fuel1 db fs origs pid project st1
      hp h1
    have hp2 : get_project st1.db pid = some project := by
      obtain ⟨hproj, _, _⟩ := hdbe
      unfold get_project at hp ⊢
      rw [hproj]
      exact hp
    rw [scan_project_some fuel2 st1.db st1.fs origs1 pid project hp2] at h2
    split at h2
    case isTrue hdir2 =>
      have h := scanLoop_noop project project.inputPath fuel2
        [project.inputPath] ⟨st1.db, st1.fs, origs1, ⟨0, 0, 0⟩⟩ st2 hcomp
        (fun q hq => by
          rcases List.mem_singleton.mp hq with rfl
          exact Reach.refl)
        h2
      exact h
    case isFalse => exact ScanOut.noConfusion h2

/-- Project fixture for the idempotence witness. -/
def c3project : Project := ⟨1, "p3", ["in"], "r3", 0⟩

/-- Empty store owning the fixture project. -/
def c3db : DB := ⟨[c3project], [], [], 1, 1, 0⟩

/-- Input tree fixture: a supported file and a valid archive holding
one more supported file. -/
def c3fs : FS :=
  [⟨[], "in", Node.dir⟩,
   ⟨["in"], "a.pdf", Node.file "ha"⟩,
   ⟨["in"], "z.zip", Node.zip "hz" true [([], "c.pdf", Node.file "hc")]⟩]

/-- The state the first scan of the fixture completes in (two new
jobs, one archive expanded). -/
def c3st1 : ScanState :=
  match scan_project 5 c3db c3fs [] 1 with
  | .out s => s
  | _ => ⟨c3db, c3fs, [], ⟨0, 0, 0⟩⟩

/-- The state the second scan (over the post-extraction tree and
store) completes in. -/
def c3st2 : ScanState :=
  match scan_project 5 c3st1.db c3st1.fs c3st1.originals 1 with
  | .out s => s
  | _ => c3st1

/-- C3 witness: on the fixture — whose first scan expands an archive —
the second scan reports `new_jobs = 0` and `zip_extracted = 0`. -/
theorem scan_project_idempotent_witness :
    c3st2.summary.new_jobs = 0 ∧ c3st2.summary.zip_extracted = 0 :=
  scan_project_idempotent 5 5 c3db c3fs [] c3st1.originals 1 c3st1 c3st2
    rfl rfl

end Outpost
